import Mathlib

/-!
Verification of the ubiquity N-way file synchronizer core: a shallow
embedding of the archive store, update detection, reconciliation and
propagation routines, with theorems about the properties they satisfy.

Paths are modelled as lists of components (`Rust Path` componentwise);
the FNV-1a hash of a path is modelled as an abstract or concrete
`Path → Nat` function (hash collisions are out of scope, per the
source's own design notes).  Machine integers (`u64` inodes, `i64`
ctimes) are modelled as `Nat`/`Int` with explicit range side conditions
where serialization needs them.
-/

namespace Ubiquity

/-- Freshness token stored for an existing entry: `{ino: u64, ctime: i64}`
(src/state.rs, `ArchiveEntryExists`). -/
structure ArchiveEntryExists where
  ino : Nat
  ctime : Int
deriving DecidableEq

/-- Per-replica entry state (src/state.rs, `ArchiveEntryPerReplica`).
The constructor order matches the Rust declaration order
(`Empty, Directory, File, Symlink`), which fixes the serialized
discriminants. -/
inductive ArchiveEntryPerReplica
  | Empty
  | Directory (e : ArchiveEntryExists)
  | File (e : ArchiveEntryExists)
  | Symlink (e : ArchiveEntryExists)
deriving DecidableEq

namespace ArchiveEntryPerReplica

/-- `ArchiveEntryPerReplica::equal_ty` (src/state.rs): kind equality,
ignoring the freshness token. -/
def equal_ty : ArchiveEntryPerReplica → ArchiveEntryPerReplica → Bool
  | .Empty, .Empty => true
  | .Empty, _ => false
  | .File _, .File _ => true
  | .File _, _ => false
  | .Directory _, .Directory _ => true
  | .Directory _, _ => false
  | .Symlink _, .Symlink _ => true
  | .Symlink _, _ => false

/-- `ArchiveEntryPerReplica::is_file_or_symlink` (src/state.rs). -/
def is_file_or_symlink : ArchiveEntryPerReplica → Bool
  | .File _ | .Symlink _ => true
  | _ => false

/-- `ArchiveEntryPerReplica::entry_exists` (src/state.rs). -/
def entry_exists : ArchiveEntryPerReplica → Bool
  | .Empty => false
  | _ => true

end ArchiveEntryPerReplica

/-- A relative or absolute filesystem path, as its list of components.
Joining paths is list append; the empty list is the root itself. -/
abbrev FsPath := List String

/-- Componentwise prefix test: `pathStartsWith p q` models Rust
`p.starts_with(q)` (`std::path::Path::starts_with`, used by
`DetectionResult::add_difference` and `is_ignored`). -/
def pathStartsWith : FsPath → FsPath → Bool
  | _, [] => true
  | [], _ :: _ => false
  | a :: as, b :: bs => a == b && pathStartsWith as bs

theorem pathStartsWith_iff (p q : FsPath) : pathStartsWith p q = true ↔ q <+: p := by
  induction q generalizing p with
  | nil => simp [pathStartsWith]
  | cons b bs ih =>
    cases p with
    | nil =>
      simp only [pathStartsWith, Bool.false_eq_true, false_iff]
      intro h
      exact List.cons_ne_nil b bs (List.prefix_nil.mp h)
    | cons a as =>
      show (a == b && pathStartsWith as bs) = true ↔ _
      rw [Bool.and_eq_true, beq_iff_eq, List.cons_prefix_cons, ih]
      exact and_congr_left (fun _ => eq_comm)

theorem pathStartsWith_refl (p : FsPath) : pathStartsWith p p = true := by
  rw [pathStartsWith_iff]

/-- The string form of a relative path (`Path::to_str`), with `/` as the
separator, as consumed by the regex matcher in `is_ignored`. -/
def pathToString (p : FsPath) : String := String.intercalate "/" p

/-- `config::Ignore` (src/config.rs).  `paths` are the literal strings,
kept in component form because `is_ignored` matches them with
`Path::starts_with` (componentwise); `regexes` are the compiled regexes,
abstracted as their matching functions on the string form of a path. -/
structure Ignore where
  paths : List FsPath
  regexes : List (String → Bool)

/-- `is_ignored` (src/detect/util.rs lines 31-45). -/
def is_ignored (ignore : Ignore) (path : FsPath) : Bool :=
  ignore.paths.any (fun ig => pathStartsWith path ig)
    || ignore.regexes.any (fun ig => ig (pathToString path))

/-! ## Differences and `add_difference` (claim C1) -/

/-- `detect::Difference` (src/detect/mod.rs lines 19-28).  The
per-replica arrays (`GenericArray<_, N>`) are modelled as lists. -/
structure Difference where
  path : FsPath
  roots : List FsPath
  previous_state : Option (List ArchiveEntryPerReplica)
  current_state : List ArchiveEntryPerReplica
deriving DecidableEq

/-- `Difference::absolute_path_for_root` (src/detect/mod.rs lines 31-33). -/
def Difference.absolute_path_for_root (d : Difference) (index : Nat) : FsPath :=
  d.roots.getD index [] ++ d.path

/-- `DetectionResult::add_difference` (src/detect/mod.rs lines 50-69).
The Rust `retain` keeps exactly the existing differences whose path does
not start with the new difference's path, and the flag `add` ends up
false exactly when some existing difference fell into the second branch
(its path is a strict "prefix-ancestor" of the new path). -/
def add_difference (differences : List Difference) (conflict : Difference) :
    List Difference :=
  let kept := differences.filter
    (fun other => !pathStartsWith other.path conflict.path)
  let add := differences.all
    (fun other => pathStartsWith other.path conflict.path
      || !pathStartsWith conflict.path other.path)
  if add then kept ++ [conflict] else kept

/-- Minimality invariant of a difference set: no difference's path is a
componentwise prefix of another's (in particular all paths are
distinct). -/
def MinimalDiffs (differences : List Difference) : Prop :=
  differences.Pairwise (fun a b =>
    pathStartsWith a.path b.path = false ∧ pathStartsWith b.path a.path = false)

instance : DecidablePred MinimalDiffs := fun ds =>
  inferInstanceAs (Decidable (List.Pairwise _ ds))

theorem mem_add_difference {ds : List Difference} {c d : Difference}
    (h : d ∈ add_difference ds c) : d ∈ ds ∨ d = c := by
  unfold add_difference at h
  by_cases hadd : ds.all
      (fun other => pathStartsWith other.path c.path
        || !pathStartsWith c.path other.path) = true
  · simp only [hadd, if_pos] at h
    rcases List.mem_append.mp h with h | h
    · exact Or.inl (List.mem_of_mem_filter h)
    · simp only [List.mem_singleton] at h
      exact Or.inr h
  · simp only [hadd, if_neg] at h
    simp only [Bool.not_eq_true] at hadd
    exact Or.inl (List.mem_of_mem_filter h)

theorem minimal_add_difference (ds : List Difference) (c : Difference)
    (h : MinimalDiffs ds) : MinimalDiffs (add_difference ds c) := by
  unfold add_difference
  by_cases hadd : ds.all
      (fun other => pathStartsWith other.path c.path
        || !pathStartsWith c.path other.path) = true
  · simp only [hadd, if_pos]
    unfold MinimalDiffs
    rw [List.pairwise_append]
    refine ⟨List.Pairwise.filter _ h, List.pairwise_singleton _ _, ?_⟩
    intro a ha b hb
    rw [List.mem_singleton] at hb
    subst hb
    have hmem := List.mem_of_mem_filter ha
    have hfilt := List.of_mem_filter ha
    simp only [Bool.not_eq_true'] at hfilt
    have hall := List.all_eq_true.mp hadd a hmem
    rw [hfilt] at hall
    simp only [Bool.false_or, Bool.not_eq_true'] at hall
    exact ⟨hfilt, hall⟩
  · simp only [hadd, if_neg]
    exact List.Pairwise.filter _ h

theorem minimal_foldl_add_difference (cs : List Difference)
    (init : List Difference) (h : MinimalDiffs init) :
    MinimalDiffs (cs.foldl add_difference init) := by
  induction cs generalizing init with
  | nil => exact h
  | cons c cs ih => exact ih _ (minimal_add_difference init c h)

/-- A token for the freshness data in concrete examples. -/
def tok0 : ArchiveEntryExists := ⟨0, 0⟩

/-- Concrete difference at path `a/b` with two replicas. -/
def diff_ab : Difference :=
  { path := ["a", "b"]
    roots := [["r0"], ["r1"]]
    previous_state := none
    current_state := [.File tok0, .Empty] }

/-- Concrete difference at path `a/b/c` with two replicas. -/
def diff_abc : Difference :=
  { path := ["a", "b", "c"]
    roots := [["r0"], ["r1"]]
    previous_state := none
    current_state := [.File tok0, .Empty] }

/-- C1: `add_difference` maintains a minimal difference set: dropping
existing differences nested under the new path, refusing differences
nested under an existing path, and appending otherwise.  Hence (a) one
call preserves minimality, (b) every sequence of calls starting from the
empty set yields a set in which no path is a prefix of another, and
(c) adding differences at `a/b` and `a/b/c` (in either order) leaves
only the one at `a/b`. -/
theorem add_difference_minimal :
    (∀ (ds : List Difference) (c : Difference),
      MinimalDiffs ds → MinimalDiffs (add_difference ds c)) ∧
    (∀ cs : List Difference, MinimalDiffs (cs.foldl add_difference [])) ∧
    add_difference (add_difference [] diff_ab) diff_abc = [diff_ab] ∧
    add_difference (add_difference [] diff_abc) diff_ab = [diff_ab] := by
  refine ⟨minimal_add_difference, fun cs => minimal_foldl_add_difference cs [] ?_, ?_, ?_⟩
  · exact List.Pairwise.nil
  · decide
  · decide

/-- Witness for C1's hypothesis: applying the preservation part at a
concrete minimal set. -/
theorem add_difference_minimal_witness :
    MinimalDiffs [diff_ab] ∧ MinimalDiffs (add_difference [diff_ab] diff_abc) :=
  ⟨by decide, add_difference_minimal.1 [diff_ab] diff_abc (by decide)⟩

/-! ## Filesystem model

The replicas' filesystem is modelled as a finite list of nodes, one per
absolute path that exists.  `ArchiveEntryPerReplica::from(&Path)`
(src/state.rs lines 72-94) becomes `Fs.observe`; `Path::is_dir` becomes
`Fs.isDir`; `Metadata::size` becomes `Fs.statSize`; the external `cmp`
comparator compares abstract content identifiers. -/

/-- The file type reported by `Metadata::file_type`. -/
inductive FsKind
  | file
  | directory
  | symlink
deriving DecidableEq

/-- One existing filesystem object at an absolute path. -/
structure FsNode where
  path : FsPath
  kind : FsKind
  ino : Nat
  ctime : Int
  size : Nat
  /-- Abstract identifier for the byte contents of a file; two files are
  byte-equal iff their `content` fields agree. -/
  content : Nat
deriving DecidableEq

/-- A filesystem: the finite collection of existing nodes. -/
abbrev Fs := List FsNode

/-- Look a path up in the filesystem. -/
def Fs.find (fs : Fs) (p : FsPath) : Option FsNode :=
  List.find? (fun n => n.path == p) fs

/-- `ArchiveEntryPerReplica::from(&Path)` (src/state.rs lines 72-94):
stat the path; missing means `Empty`, otherwise classify by file type
and record `{ino, ctime}`. -/
def Fs.observe (fs : Fs) (p : FsPath) : ArchiveEntryPerReplica :=
  match Fs.find fs p with
  | none => .Empty
  | some n =>
    match n.kind with
    | .file => .File ⟨n.ino, n.ctime⟩
    | .directory => .Directory ⟨n.ino, n.ctime⟩
    | .symlink => .Symlink ⟨n.ino, n.ctime⟩

/-- `Path::is_dir`. -/
def Fs.isDir (fs : Fs) (p : FsPath) : Bool :=
  match Fs.find fs p with
  | some n => n.kind == .directory
  | none => false

/-- Kinds of `std::io::Error` that the code can observe. -/
inductive IoErrorKind
  | notFound
  | unexpectedEof
  | other (code : Nat)
deriving DecidableEq

/-- `path.metadata()?.size()`: stat of an absolute path, failing with an
I/O error when the path does not exist. -/
def Fs.statSize (fs : Fs) (p : FsPath) : Except IoErrorKind Nat :=
  match Fs.find fs p with
  | some n => .ok n.size
  | none => .error .notFound

/-- The size a successful stat returns (defined for convenience of
statement; agrees with `Fs.statSize` whenever the path exists). -/
def statSizeD (fs : Fs) (p : FsPath) : Nat :=
  match Fs.find fs p with
  | some n => n.size
  | none => 0

/-- `file_contents_equal_cmd` (src/compare_files.rs lines 6-13): shells
out to `cmp`, which exits 0 iff the operands are byte-equal (a missing
operand gives a nonzero exit, hence `false`). -/
def file_contents_equal_cmd (fs : Fs) (a b : FsPath) : Bool :=
  match Fs.find fs a, Fs.find fs b with
  | some na, some nb => na.content == nb.content
  | _, _ => false

/-! ## The comparator `is_item_in_sync` (claim C2) -/

/-- `slice::windows(2)` over a list, as the list of adjacent pairs. -/
def adjPairs {α : Type _} (xs : List α) : List (α × α) := xs.zip xs.tail

theorem adjPairs_length {α : Type _} (xs : List α) :
    (adjPairs xs).length = xs.length - 1 := by
  unfold adjPairs
  rw [List.length_zip, List.length_tail]
  exact Nat.min_eq_right (Nat.sub_le _ _)

/-- One adjacent window of entries together with the matching window of
roots, as produced by `current_entry.windows(2).zip(roots.windows(2))`. -/
abbrev SyncWindow :=
  (ArchiveEntryPerReplica × ArchiveEntryPerReplica) × (FsPath × FsPath)

/-- The second loop of `is_item_in_sync` (src/detect/ext.rs lines
28-38): for each adjacent pair that are both file-or-symlink, stat both
absolute paths and return `Ok(false)` on the first size mismatch,
propagating stat errors. -/
def sizeLoop (fs : Fs) (path : FsPath) : List SyncWindow → Except IoErrorKind Bool
  | [] => .ok true
  | (ew, rw) :: rest =>
    if ew.1.is_file_or_symlink && ew.2.is_file_or_symlink then
      match Fs.statSize fs (rw.1 ++ path) with
      | .error e => .error e
      | .ok size_0 =>
        match Fs.statSize fs (rw.2 ++ path) with
        | .error e => .error e
        | .ok size_1 =>
          if size_0 ≠ size_1 then .ok false else sizeLoop fs path rest
    else sizeLoop fs path rest

/-- The third loop of `is_item_in_sync` (src/detect/ext.rs lines 41-51):
byte-compare each adjacent file-or-symlink pair with the external tool,
returning `false` on the first inequality. -/
def cmpLoop (fs : Fs) (path : FsPath) : List SyncWindow → Bool
  | [] => true
  | (ew, rw) :: rest =>
    if ew.1.is_file_or_symlink && ew.2.is_file_or_symlink then
      if !file_contents_equal_cmd fs (rw.1 ++ path) (rw.2 ++ path) then false
      else cmpLoop fs path rest
    else cmpLoop fs path rest

/-- `is_item_in_sync` (src/detect/ext.rs lines 10-54). -/
def is_item_in_sync (fs : Fs) (path : FsPath)
    (current_entry : List ArchiveEntryPerReplica)
    (compare_file_contents : Bool) (roots : List FsPath) :
    Except IoErrorKind Bool :=
  if (adjPairs current_entry).any
      (fun w => !ArchiveEntryPerReplica.equal_ty w.1 w.2) then .ok false
  else
    match sizeLoop fs path ((adjPairs current_entry).zip (adjPairs roots)) with
    | .error e => .error e
    | .ok false => .ok false
    | .ok true =>
      if compare_file_contents then
        .ok (cmpLoop fs path ((adjPairs current_entry).zip (adjPairs roots)))
      else .ok true

/-- Hypothesis that every stat the size loop performs succeeds (both
paths of every adjacent file-or-symlink window exist). -/
def statsAvailable (fs : Fs) (path : FsPath) (pairs : List SyncWindow) : Prop :=
  ∀ x ∈ pairs, x.1.1.is_file_or_symlink = true → x.1.2.is_file_or_symlink = true →
    (Fs.find fs (x.2.1 ++ path)).isSome = true ∧ (Fs.find fs (x.2.2 ++ path)).isSome = true

instance statsAvailable.dec (fs : Fs) (path : FsPath) (pairs : List SyncWindow) :
    Decidable (statsAvailable fs path pairs) := by
  unfold statsAvailable
  infer_instance

/-- A window passes the size check: not both file-or-symlink, or the two
stat'ed sizes agree. -/
def sizeOKb (fs : Fs) (path : FsPath) (x : SyncWindow) : Bool :=
  !(x.1.1.is_file_or_symlink && x.1.2.is_file_or_symlink)
    || (statSizeD fs (x.2.1 ++ path) == statSizeD fs (x.2.2 ++ path))

/-- A window passes the contents check: not both file-or-symlink, or the
external comparator reports equal contents. -/
def cmpOKb (fs : Fs) (path : FsPath) (x : SyncWindow) : Bool :=
  !(x.1.1.is_file_or_symlink && x.1.2.is_file_or_symlink)
    || file_contents_equal_cmd fs (x.2.1 ++ path) (x.2.2 ++ path)

theorem statSize_of_isSome {fs : Fs} {p : FsPath}
    (h : (Fs.find fs p).isSome = true) :
    Fs.statSize fs p = .ok (statSizeD fs p) := by
  unfold Fs.statSize statSizeD
  cases hf : Fs.find fs p with
  | none => rw [hf] at h; simp at h
  | some n => rfl

theorem cmpLoop_eq (fs : Fs) (path : FsPath) (pairs : List SyncWindow) :
    cmpLoop fs path pairs = pairs.all (cmpOKb fs path) := by
  induction pairs with
  | nil => rfl
  | cons x rest ih =>
    obtain ⟨ew, rw⟩ := x
    rw [cmpLoop, List.all_cons]
    by_cases hfos : (ew.1.is_file_or_symlink && ew.2.is_file_or_symlink) = true
    · rw [if_pos hfos]
      by_cases hcmp : file_contents_equal_cmd fs (rw.1 ++ path) (rw.2 ++ path) = true
      · simp only [hcmp, Bool.not_true, Bool.false_eq_true, if_neg, ih]
        simp [cmpOKb, hcmp]
      · simp only [Bool.not_eq_true] at hcmp
        simp only [hcmp, Bool.not_false, if_pos]
        simp [cmpOKb, hfos, hcmp]
    · rw [if_neg hfos, ih]
      simp only [Bool.not_eq_true] at hfos
      simp [cmpOKb, hfos]

theorem sizeLoop_eq (fs : Fs) (path : FsPath) (pairs : List SyncWindow)
    (h : statsAvailable fs path pairs) :
    sizeLoop fs path pairs = .ok (pairs.all (sizeOKb fs path)) := by
  induction pairs with
  | nil => rfl
  | cons x rest ih =>
    obtain ⟨ew, rw⟩ := x
    have hrest : statsAvailable fs path rest := fun y hy => h y (List.mem_cons_of_mem _ hy)
    rw [sizeLoop, List.all_cons]
    by_cases hfos : (ew.1.is_file_or_symlink && ew.2.is_file_or_symlink) = true
    · have hx := h (ew, rw) (List.mem_cons_self _ _)
      have h1 := hx (Bool.and_elim_left hfos) (Bool.and_elim_right hfos)
      rw [if_pos hfos, statSize_of_isSome h1.1, statSize_of_isSome h1.2]
      by_cases hsz : statSizeD fs (rw.1 ++ path) = statSizeD fs (rw.2 ++ path)
      · simp only [hsz, ne_eq, not_true_eq_false, if_neg, ih hrest]
        simp [sizeOKb, hsz]
      · simp only [ne_eq, hsz, not_false_eq_true, if_pos]
        simp [sizeOKb, hfos, hsz]
    · rw [if_neg hfos, ih hrest]
      simp only [Bool.not_eq_true] at hfos
      simp [sizeOKb, hfos]

theorem any_not_eq_not_all {α : Type _} (xs : List α) (f : α → Bool) :
    (xs.any fun x => !f x) = !xs.all f := by
  induction xs with
  | nil => rfl
  | cons x xs ih => simp [List.any_cons, List.all_cons, ih, Bool.not_and]

/-- The full behaviour of `is_item_in_sync` when all stats succeed, as a
single equation. -/
theorem is_item_in_sync_eq (fs : Fs) (path : FsPath)
    (cur : List ArchiveEntryPerReplica) (cc : Bool) (roots : List FsPath)
    (h : statsAvailable fs path ((adjPairs cur).zip (adjPairs roots))) :
    is_item_in_sync fs path cur cc roots =
      .ok ((adjPairs cur).all (fun w => ArchiveEntryPerReplica.equal_ty w.1 w.2)
        && ((adjPairs cur).zip (adjPairs roots)).all (sizeOKb fs path)
        && (!cc || ((adjPairs cur).zip (adjPairs roots)).all (cmpOKb fs path))) := by
  unfold is_item_in_sync
  rw [any_not_eq_not_all, sizeLoop_eq fs path _ h, cmpLoop_eq]
  cases hk : (adjPairs cur).all (fun w => ArchiveEntryPerReplica.equal_ty w.1 w.2) with
  | false => simp
  | true =>
    simp only [Bool.not_true, Bool.false_eq_true, if_neg, Bool.true_and]
    cases hs : ((adjPairs cur).zip (adjPairs roots)).all (sizeOKb fs path) with
    | false => simp
    | true => cases cc <;> simp

/-- C2: the comparator returns `Ok(false)` as soon as two adjacent
entries differ in kind; when every stat succeeds, it returns `Ok(true)`
iff all adjacent pairs agree in kind, every adjacent file-or-symlink
pair has equal stat'ed sizes, and (when `compare_contents` is set) the
external byte comparator reports every adjacent file-or-symlink pair
equal — and it consults only the `N-1` adjacent windows. -/
theorem is_item_in_sync_spec :
    (∀ (fs : Fs) (path : FsPath) (cur : List ArchiveEntryPerReplica)
        (cc : Bool) (roots : List FsPath),
      (∃ w ∈ adjPairs cur, ArchiveEntryPerReplica.equal_ty w.1 w.2 = false) →
      is_item_in_sync fs path cur cc roots = .ok false) ∧
    (∀ (fs : Fs) (path : FsPath) (cur : List ArchiveEntryPerReplica)
        (cc : Bool) (roots : List FsPath),
      statsAvailable fs path ((adjPairs cur).zip (adjPairs roots)) →
      (is_item_in_sync fs path cur cc roots = .ok true ↔
        (∀ w ∈ adjPairs cur, ArchiveEntryPerReplica.equal_ty w.1 w.2 = true) ∧
        (∀ x ∈ (adjPairs cur).zip (adjPairs roots), sizeOKb fs path x = true) ∧
        (cc = true → ∀ x ∈ (adjPairs cur).zip (adjPairs roots), cmpOKb fs path x = true))) ∧
    (∀ (cur : List ArchiveEntryPerReplica), (adjPairs cur).length = cur.length - 1) := by
  refine ⟨?_, ?_, adjPairs_length⟩
  · intro fs path cur cc roots ⟨w, hw, hty⟩
    unfold is_item_in_sync
    have : (adjPairs cur).any (fun w => !ArchiveEntryPerReplica.equal_ty w.1 w.2) = true :=
      List.any_eq_true.mpr ⟨w, hw, by rw [hty]; rfl⟩
    rw [if_pos this]
  · intro fs path cur cc roots h
    rw [is_item_in_sync_eq fs path cur cc roots h]
    constructor
    · intro hok
      have hb := Except.ok.inj hok
      rw [Bool.and_eq_true, Bool.and_eq_true, Bool.or_eq_true] at hb
      obtain ⟨⟨hk, hs⟩, hc⟩ := hb
      refine ⟨List.all_eq_true.mp hk, List.all_eq_true.mp hs, ?_⟩
      intro hcc
      rcases hc with hc | hc
      · rw [hcc] at hc; simp at hc
      · exact List.all_eq_true.mp hc
    · rintro ⟨hk, hs, hc⟩
      have hk' := List.all_eq_true.mpr hk
      have hs' := List.all_eq_true.mpr hs
      by_cases hcc : cc = true
      · have hc' := List.all_eq_true.mpr (hc hcc)
        rw [hk', hs', hc', hcc]
        rfl
      · rw [Bool.not_eq_true] at hcc
        rw [hk', hs', hcc]
        rfl

/-- Two-replica filesystem for the C2 witness: `r0/f` and `r1/f` are
files of equal size and equal content. -/
def witFs : Fs :=
  [ ⟨["r0", "f"], .file, 1, 10, 42, 7⟩,
    ⟨["r1", "f"], .file, 2, 11, 42, 7⟩ ]

/-- The per-replica observations of `f` on `witFs`. -/
def witCur : List ArchiveEntryPerReplica :=
  [.File ⟨1, 10⟩, .File ⟨2, 11⟩]

/-- Witness for C2: a concrete two-replica filesystem in which a file
exists on both roots with equal sizes and contents. -/
theorem is_item_in_sync_spec_witness :
    (∃ w ∈ adjPairs [ArchiveEntryPerReplica.File tok0, ArchiveEntryPerReplica.Empty],
        ArchiveEntryPerReplica.equal_ty w.1 w.2 = false) ∧
    is_item_in_sync [] ["f"] [ArchiveEntryPerReplica.File tok0, ArchiveEntryPerReplica.Empty]
      true [["r0"], ["r1"]] = .ok false ∧
    statsAvailable witFs ["f"] ((adjPairs witCur).zip (adjPairs [["r0"], ["r1"]])) ∧
    (is_item_in_sync witFs ["f"] witCur true [["r0"], ["r1"]] = .ok true ↔
      (∀ w ∈ adjPairs witCur, ArchiveEntryPerReplica.equal_ty w.1 w.2 = true) ∧
      (∀ x ∈ (adjPairs witCur).zip (adjPairs [["r0"], ["r1"]]), sizeOKb witFs ["f"] x = true) ∧
      (true = true → ∀ x ∈ (adjPairs witCur).zip (adjPairs [["r0"], ["r1"]]),
        cmpOKb witFs ["f"] x = true)) := by
  refine ⟨by decide, ?_, by decide, ?_⟩
  · exact is_item_in_sync_spec.1 [] ["f"] _ true [["r0"], ["r1"]] (by decide)
  · exact is_item_in_sync_spec.2.1 witFs ["f"] witCur true [["r0"], ["r1"]] (by decide)

/-! ## Archive file reading and its error routing (claim C3)

`ArchiveFile::read` (src/archive.rs lines 86-98) parses an archive file
in two steps: a little-endian `u32` version tag, then the serialized
entry map.  The outcomes of those two steps are modelled abstractly (the
byte-level codec appears further below for the round-trip claim); the
routing of the outcomes through `read_entries`, `read_from_file` and
`read` is embedded exactly. -/

/-- `ARCHIVE_VERSION` (src/archive.rs line 20). -/
def ARCHIVE_VERSION : Nat := 3

/-- `bincode`'s `DeserializeError`, abstracted to the cases
`read_from_file` distinguishes: the `Serde(EndOfStream)` case, any other
serde error, and a wrapped I/O error. -/
inductive DeserializeError
  | EndOfStream
  | SerdeOther (code : Nat)
  | IoError (e : IoErrorKind)
deriving DecidableEq

/-- `archive::ReadError` (src/archive.rs lines 265-271). -/
inductive ReadError
  | InvalidArchiveVersion (version : Nat)
  | IoError (e : IoErrorKind)
  | DeserializeError (e : DeserializeError)
deriving DecidableEq

/-- Abstract outcome of the two parsing steps applied to one archive
file's bytes: what `read_u32::<LittleEndian>()` yields, and what
`deserialize_from` would yield on the rest. -/
structure RawArchiveFile (M : Type _) where
  version : Except IoErrorKind Nat
  body : Except DeserializeError M

/-- `read_entries` (src/archive.rs lines 249-256): read the version tag
(propagating its I/O error), reject a mismatched version, then
deserialize the body (propagating its error). -/
def read_entries {M : Type _} (raw : RawArchiveFile M) : Except ReadError M :=
  match raw.version with
  | .error e => .error (.IoError e)
  | .ok version =>
    if version ≠ ARCHIVE_VERSION then .error (.InvalidArchiveVersion version)
    else
      match raw.body with
      | .ok m => .ok m
      | .error e => .error (.DeserializeError e)

/-- The error-catching `match` of `read_from_file` (src/archive.rs
lines 222-233): catch exactly the `InvalidArchiveVersion` and
`DeserializeError(Serde(EndOfStream))` failures, turning them into the
default (empty) map; propagate every other error. -/
def catchDegraded {M : Type _} (empty : M) :
    Except ReadError M → Except ReadError M
  | .ok i => .ok i
  | .error (.InvalidArchiveVersion _) => .ok empty
  | .error (.DeserializeError .EndOfStream) => .ok empty
  | .error e => .error e

/-- `read_from_file` (src/archive.rs lines 219-234). -/
def read_from_file {M : Type _} (empty : M) (raw : RawArchiveFile M) :
    Except ReadError M :=
  catchDegraded empty (read_entries raw)

/-- `ArchiveFile::read` (src/archive.rs lines 86-98): a missing file
yields the empty entry set; an existing file goes through
`read_from_file`.  (The cached-handle branch performs the same
`read_from_file` call and is not distinguished here.) -/
def archiveFileRead {M : Type _} (empty : M) (file : Option (RawArchiveFile M)) :
    Except ReadError M :=
  match file with
  | none => .ok empty
  | some raw => read_from_file empty raw

/-- The claim's case analysis, stated directly from the spec's words:
empty (without failing) exactly for a missing file, a version-tag
mismatch, or end-of-stream during deserialization; every other I/O
error and every other deserialization error propagated as a
`ReadError`. -/
def archiveFileReadSpec {M : Type _} (empty : M) :
    Option (RawArchiveFile M) → Except ReadError M
  | none => .ok empty
  | some raw =>
    match raw.version with
    | .error e => .error (.IoError e)
    | .ok v =>
      if v ≠ ARCHIVE_VERSION then .ok empty
      else
        match raw.body with
        | .ok m => .ok m
        | .error .EndOfStream => .ok empty
        | .error (.SerdeOther c) => .error (.DeserializeError (.SerdeOther c))
        | .error (.IoError e) => .error (.DeserializeError (.IoError e))

/-- C3: `ArchiveFile::read` returns an empty map, without failing, in
exactly the degraded cases the claim lists (missing file, version-tag
mismatch, end-of-stream truncation), and propagates every other I/O or
deserialization error as a `ReadError`. -/
theorem archiveFileRead_eq_spec {M : Type _} (empty : M)
    (file : Option (RawArchiveFile M)) :
    archiveFileRead empty file = archiveFileReadSpec empty file := by
  cases file with
  | none => rfl
  | some raw =>
    obtain ⟨ver, body⟩ := raw
    cases ver with
    | error e => rfl
    | ok v =>
      by_cases hne : v ≠ ARCHIVE_VERSION
      · simp [archiveFileRead, archiveFileReadSpec, read_from_file, read_entries,
          catchDegraded, hne]
      · rw [not_not] at hne
        subst hne
        cases body with
        | ok m =>
          simp [archiveFileRead, archiveFileReadSpec, read_from_file, read_entries,
            catchDegraded]
        | error e =>
          cases e <;>
            simp [archiveFileRead, archiveFileReadSpec, read_from_file, read_entries,
              catchDegraded]

/-! ## Byte-level archive codec and the write/read round-trip (claim C4)

The on-disk layout (src/archive.rs `write_entries`/`read_entries`
together with the serialization format described for the archive files):
a little-endian `u32` version tag, then the serialized
`HashedPath → [EntryState; N]` map — a length-prefixed count, and for
each pair an 8-byte little-endian hash followed by `N` tagged entries,
each a one-byte discriminant (`0=Empty, 1=Directory, 2=File, 3=Symlink`,
the Rust declaration order) followed by `{ino: u64, ctime: i64}`
little-endian for non-`Empty` entries.  Modelled from the spec: the
`bincode` codec itself is an external crate, so its encoding is
reproduced here from the spec's format description. -/

/-- The entry map stored in one archive file: hashed child path mapped
to the per-replica entry array, in the (unspecified) iteration order of
the hash map. -/
abbrev ArchiveEntryMap := List (Nat × List ArchiveEntryPerReplica)

/-- Little-endian base-256 encoding of `n` into exactly `k` bytes. -/
def encLE : Nat → Nat → List Nat
  | 0, _ => []
  | k + 1, n => n % 256 :: encLE k (n / 256)

/-- Read `k` little-endian bytes; `none` when the stream is too short. -/
def decLE : Nat → List Nat → Option (Nat × List Nat)
  | 0, bs => some (0, bs)
  | _ + 1, [] => none
  | k + 1, b :: bs => (decLE k bs).map (fun p => (b + 256 * p.1, p.2))

theorem decLE_encLE (k n : Nat) (r : List Nat) (h : n < 256 ^ k) :
    decLE k (encLE k n ++ r) = some (n, r) := by
  induction k generalizing n with
  | zero =>
    have : n = 0 := Nat.lt_one_iff.mp (by simpa using h)
    subst this
    rfl
  | succ k ih =>
    have hdiv : n / 256 < 256 ^ k := by
      rw [Nat.div_lt_iff_lt_mul (by norm_num)]
      calc n < 256 ^ (k + 1) := h
        _ = 256 ^ k * 256 := by rw [Nat.pow_succ]
    rw [encLE, List.cons_append, decLE, ih (n / 256) hdiv]
    simp [Nat.mod_add_div]

/-- Two's-complement little-endian encoding of an `i64`. -/
def encI64 (i : Int) : List Nat := encLE 8 (i.emod (2 ^ 64)).toNat

/-- Decode an `i64` from 8 little-endian bytes. -/
def decI64 (bs : List Nat) : Option (Int × List Nat) :=
  match decLE 8 bs with
  | none => none
  | some (m, rest) =>
    some (if m < 2 ^ 63 then (m : Int) else (m : Int) - 2 ^ 64, rest)

theorem decI64_encI64 (i : Int) (r : List Nat)
    (h1 : -(2 ^ 63) ≤ i) (h2 : i < 2 ^ 63) :
    decI64 (encI64 i ++ r) = some (i, r) := by
  have e64 : ((2 : Int) ^ 64) = 18446744073709551616 := by norm_num
  have e63 : ((2 : Int) ^ 63) = 9223372036854775808 := by norm_num
  have n63 : ((2 : Nat) ^ 63) = 9223372036854775808 := by norm_num
  have hnonneg : 0 ≤ i.emod 18446744073709551616 := Int.emod_nonneg i (by norm_num)
  have hlt : i.emod 18446744073709551616 < 18446744073709551616 :=
    Int.emod_lt_of_pos i (by norm_num)
  have hb : (i.emod 18446744073709551616).toNat < 256 ^ 8 := by
    have h256 : ((256 : Nat) ^ 8) = 18446744073709551616 := by norm_num
    omega
  rw [e63] at h1 h2
  have hkey : i.emod 18446744073709551616 = i ∨
      i.emod 18446744073709551616 = i + 18446744073709551616 := by
    by_cases hi : 0 ≤ i
    · exact Or.inl (Int.emod_eq_of_lt hi (by omega))
    · push_neg at hi
      refine Or.inr ?_
      have h0 : (i + 18446744073709551616).emod 18446744073709551616 =
          i.emod 18446744073709551616 := Int.add_emod_self
      have h3 : (i + 18446744073709551616).emod 18446744073709551616 =
          i + 18446744073709551616 :=
        Int.emod_eq_of_lt (by omega) (by omega)
      omega
  unfold decI64 encI64
  rw [e64, n63]
  simp only [decLE_encLE 8 _ r hb]
  by_cases hc : (i.emod 18446744073709551616).toNat < 9223372036854775808
  · rw [if_pos hc]
    have ht : (((i.emod 18446744073709551616).toNat : Int)) = i := by omega
    rw [ht]
  · rw [if_neg hc]
    have ht : (((i.emod 18446744073709551616).toNat : Int)) - 18446744073709551616 = i := by
      omega
    rw [ht]

/-- Encode one tagged entry: the discriminant byte in the Rust
declaration order, then `ino` and `ctime` for existing entries. -/
def encEntry : ArchiveEntryPerReplica → List Nat
  | .Empty => [0]
  | .Directory e => 1 :: (encLE 8 e.ino ++ encI64 e.ctime)
  | .File e => 2 :: (encLE 8 e.ino ++ encI64 e.ctime)
  | .Symlink e => 3 :: (encLE 8 e.ino ++ encI64 e.ctime)

/-- Decode the `{ino, ctime}` token and build an entry with `mk`. -/
def decTok (mk : ArchiveEntryExists → ArchiveEntryPerReplica) (bs : List Nat) :
    Except DeserializeError (ArchiveEntryPerReplica × List Nat) :=
  match decLE 8 bs with
  | none => .error .EndOfStream
  | some (ino, bs1) =>
    match decI64 bs1 with
    | none => .error .EndOfStream
    | some (ctime, bs2) => .ok (mk ⟨ino, ctime⟩, bs2)

/-- Decode one tagged entry; an unknown discriminant is a non-EOS serde
error, a short stream is end-of-stream. -/
def decEntry : List Nat → Except DeserializeError (ArchiveEntryPerReplica × List Nat)
  | [] => .error .EndOfStream
  | 0 :: bs => .ok (.Empty, bs)
  | 1 :: bs => decTok .Directory bs
  | 2 :: bs => decTok .File bs
  | 3 :: bs => decTok .Symlink bs
  | b :: _ => .error (.SerdeOther b)

/-- Range side conditions under which an entry serializes reversibly:
`ino` fits in a `u64` and `ctime` in an `i64` (always true of values
obtained from `stat`). -/
def entryWF : ArchiveEntryPerReplica → Prop
  | .Empty => True
  | .Directory e => e.ino < 2 ^ 64 ∧ -(2 ^ 63) ≤ e.ctime ∧ e.ctime < 2 ^ 63
  | .File e => e.ino < 2 ^ 64 ∧ -(2 ^ 63) ≤ e.ctime ∧ e.ctime < 2 ^ 63
  | .Symlink e => e.ino < 2 ^ 64 ∧ -(2 ^ 63) ≤ e.ctime ∧ e.ctime < 2 ^ 63

instance entryWF.dec (e : ArchiveEntryPerReplica) : Decidable (entryWF e) := by
  cases e <;> (unfold entryWF; infer_instance)

theorem decTok_enc (mk : ArchiveEntryExists → ArchiveEntryPerReplica)
    (e : ArchiveEntryExists) (r : List Nat) (h1 : e.ino < 2 ^ 64)
    (h2 : -(2 ^ 63) ≤ e.ctime) (h3 : e.ctime < 2 ^ 63) :
    decTok mk ((encLE 8 e.ino ++ encI64 e.ctime) ++ r) = .ok (mk e, r) := by
  have hino : e.ino < 256 ^ 8 := by
    have h64 : ((256 : Nat) ^ 8) = 2 ^ 64 := by norm_num
    omega
  rw [List.append_assoc]
  unfold decTok
  simp only [decLE_encLE 8 e.ino _ hino, decI64_encI64 e.ctime r h2 h3]

theorem decEntry_encEntry (e : ArchiveEntryPerReplica) (r : List Nat)
    (h : entryWF e) : decEntry (encEntry e ++ r) = .ok (e, r) := by
  cases e with
  | Empty => rfl
  | Directory t =>
    obtain ⟨h1, h2, h3⟩ := h
    show decEntry (1 :: ((encLE 8 t.ino ++ encI64 t.ctime) ++ r)) = _
    rw [decEntry, decTok_enc _ t r h1 h2 h3]
  | File t =>
    obtain ⟨h1, h2, h3⟩ := h
    show decEntry (2 :: ((encLE 8 t.ino ++ encI64 t.ctime) ++ r)) = _
    rw [decEntry, decTok_enc _ t r h1 h2 h3]
  | Symlink t =>
    obtain ⟨h1, h2, h3⟩ := h
    show decEntry (3 :: ((encLE 8 t.ino ++ encI64 t.ctime) ++ r)) = _
    rw [decEntry, decTok_enc _ t r h1 h2 h3]

/-- Encode the `N` entries of one map value back to back (no count:
the array length is fixed by `N`). -/
def encEntrySeq : List ArchiveEntryPerReplica → List Nat
  | [] => []
  | e :: es => encEntry e ++ encEntrySeq es

/-- Decode exactly `n` tagged entries. -/
def decEntrySeq : Nat → List Nat →
    Except DeserializeError (List ArchiveEntryPerReplica × List Nat)
  | 0, bs => .ok ([], bs)
  | n + 1, bs =>
    match decEntry bs with
    | .error e => .error e
    | .ok (e, bs1) =>
      match decEntrySeq n bs1 with
      | .error e => .error e
      | .ok (es, bs2) => .ok (e :: es, bs2)

theorem decEntrySeq_enc (es : List ArchiveEntryPerReplica) (r : List Nat)
    (h : ∀ e ∈ es, entryWF e) :
    decEntrySeq es.length (encEntrySeq es ++ r) = .ok (es, r) := by
  induction es with
  | nil => rfl
  | cons e es ih =>
    rw [List.length_cons, encEntrySeq, List.append_assoc]
    simp only [decEntrySeq, decEntry_encEntry e _ (h e (List.mem_cons_self _ _)),
      ih (fun x hx => h x (List.mem_cons_of_mem _ hx))]

/-- `decEntrySeq_enc` with the count given abstractly. -/
theorem decEntrySeq_enc_of_len (n : Nat) (es : List ArchiveEntryPerReplica)
    (r : List Nat) (hlen : es.length = n) (h : ∀ e ∈ es, entryWF e) :
    decEntrySeq n (encEntrySeq es ++ r) = .ok (es, r) :=
  hlen ▸ decEntrySeq_enc es r h

/-- Encode the map's pairs: 8-byte hash, then the entry array. -/
def encPairSeq : ArchiveEntryMap → List Nat
  | [] => []
  | (k, v) :: m => (encLE 8 k ++ encEntrySeq v) ++ encPairSeq m

/-- Decode exactly `c` pairs, each with `n` entries. -/
def decPairSeq (n : Nat) : Nat → List Nat →
    Except DeserializeError (ArchiveEntryMap × List Nat)
  | 0, bs => .ok ([], bs)
  | c + 1, bs =>
    match decLE 8 bs with
    | none => .error .EndOfStream
    | some (k, bs1) =>
      match decEntrySeq n bs1 with
      | .error e => .error e
      | .ok (v, bs2) =>
        match decPairSeq n c bs2 with
        | .error e => .error e
        | .ok (m, bs3) => .ok ((k, v) :: m, bs3)

/-- Range and shape side conditions for one archive map with `n`
replicas: hashes fit `u64`, every value has `n` in-range entries, and
the pair count fits the length prefix. -/
def mapWF (n : Nat) (m : ArchiveEntryMap) : Prop :=
  m.length < 2 ^ 64 ∧
    ∀ kv ∈ m, kv.1 < 2 ^ 64 ∧ kv.2.length = n ∧ ∀ e ∈ kv.2, entryWF e

instance mapWF.dec (n : Nat) (m : ArchiveEntryMap) : Decidable (mapWF n m) := by
  unfold mapWF
  infer_instance

theorem decPairSeq_enc (n : Nat) (m : ArchiveEntryMap) (r : List Nat)
    (h : ∀ kv ∈ m, kv.1 < 2 ^ 64 ∧ kv.2.length = n ∧ ∀ e ∈ kv.2, entryWF e) :
    decPairSeq n m.length (encPairSeq m ++ r) = .ok (m, r) := by
  induction m with
  | nil => rfl
  | cons kv m ih =>
    obtain ⟨k, v⟩ := kv
    obtain ⟨hk, hlen, hes⟩ := h (k, v) (List.mem_cons_self _ _)
    have hk' : k < 256 ^ 8 := by
      have h64 : ((256 : Nat) ^ 8) = 2 ^ 64 := by norm_num
      omega
    rw [List.length_cons, encPairSeq, List.append_assoc, List.append_assoc]
    simp only [decPairSeq, decLE_encLE 8 k _ hk',
      decEntrySeq_enc_of_len n v _ hlen hes,
      ih (fun x hx => h x (List.mem_cons_of_mem _ hx))]

/-- Encode the whole map: `u64` pair count, then the pairs. -/
def encMap (m : ArchiveEntryMap) : List Nat :=
  encLE 8 m.length ++ encPairSeq m

/-- `deserialize_from` on the body: read the count, then the pairs. -/
def decMap (n : Nat) (bs : List Nat) :
    Except DeserializeError (ArchiveEntryMap × List Nat) :=
  match decLE 8 bs with
  | none => .error .EndOfStream
  | some (c, bs1) => decPairSeq n c bs1

theorem decMap_encMap (n : Nat) (m : ArchiveEntryMap) (r : List Nat)
    (h : mapWF n m) : decMap n (encMap m ++ r) = .ok (m, r) := by
  obtain ⟨hc, hkv⟩ := h
  have hc' : m.length < 256 ^ 8 := by
    have h64 : ((256 : Nat) ^ 8) = 2 ^ 64 := by norm_num
    omega
  unfold decMap encMap
  rw [List.append_assoc]
  simp only [decLE_encLE 8 m.length _ hc', decPairSeq_enc n m r hkv]

/-- `write_entries` (src/archive.rs lines 259-263): the version tag then
the serialized map. -/
def encArchiveFile (m : ArchiveEntryMap) : List Nat :=
  encLE 4 ARCHIVE_VERSION ++ encMap m

/-- `read_entries` at the byte level (src/archive.rs lines 249-256): a
stream too short for the version tag is an I/O `UnexpectedEof`; a
mismatched tag is `InvalidArchiveVersion`; body deserialization errors
are wrapped; trailing bytes are ignored (`deserialize_from` reads
exactly one value). -/
def readEntriesBytes (n : Nat) (bs : List Nat) : Except ReadError ArchiveEntryMap :=
  match decLE 4 bs with
  | none => .error (.IoError .unexpectedEof)
  | some (v, rest) =>
    if v ≠ ARCHIVE_VERSION then .error (.InvalidArchiveVersion v)
    else
      match decMap n rest with
      | .error e => .error (.DeserializeError e)
      | .ok (m, _) => .ok m

/-- `ArchiveFile::read` over a modelled disk file (absent or its bytes),
via the same degraded-case catch as `read_from_file`. -/
def archiveFileReadBytes (n : Nat) (disk : Option (List Nat)) :
    Except ReadError ArchiveEntryMap :=
  match disk with
  | none => .ok []
  | some bs => catchDegraded [] (readEntriesBytes n bs)

/-- `ArchiveEntries::prune_deleted` (src/archive.rs lines 192-212):
drop every entry whose replica slots are all `Empty`. -/
def prune_deleted (m : ArchiveEntryMap) : ArchiveEntryMap :=
  m.filter (fun kv => !kv.2.all (fun replica => replica == .Empty))

/-- `ArchiveFile::write` (src/archive.rs lines 109-125) as its effect on
the on-disk file: prune, then either remove the file (empty map) or
truncate and rewrite it with the version tag and the serialized map. -/
def archiveFileWrite (m : ArchiveEntryMap) : Option (List Nat) :=
  let pruned := prune_deleted m
  if pruned.isEmpty then none else some (encArchiveFile pruned)

theorem readEntriesBytes_enc (n : Nat) (m : ArchiveEntryMap) (h : mapWF n m) :
    readEntriesBytes n (encArchiveFile m) = .ok m := by
  unfold readEntriesBytes encArchiveFile
  have hv : decLE 4 (encLE 4 ARCHIVE_VERSION ++ encMap m) =
      some (ARCHIVE_VERSION, encMap m) :=
    decLE_encLE 4 ARCHIVE_VERSION _ (by norm_num [ARCHIVE_VERSION])
  have hm : decMap n (encMap m ++ []) = .ok (m, []) := decMap_encMap n m [] h
  rw [List.append_nil] at hm
  simp only [hv, hm, ne_eq, not_true_eq_false, if_false, ite_false]

theorem mapWF_prune (n : Nat) (m : ArchiveEntryMap) (h : mapWF n m) :
    mapWF n (prune_deleted m) := by
  obtain ⟨hc, hkv⟩ := h
  refine ⟨lt_of_le_of_lt (List.length_filter_le _ _) hc, ?_⟩
  intro kv hm
  exact hkv kv (List.mem_of_mem_filter hm)

/-- C4: write-then-read round-trips: reading back what `write` left on
disk yields exactly the pruned map (the value `write` leaves in the
caller's `ArchiveEntries`); a map whose slots are all `Empty` produces
no file; and whenever `write` leaves a file, that file holds a
non-empty map. -/
theorem archive_write_read_roundtrip (n : Nat) (m : ArchiveEntryMap)
    (h : mapWF n m) :
    archiveFileReadBytes n (archiveFileWrite m) = .ok (prune_deleted m) ∧
    ((∀ kv ∈ m, ∀ e ∈ kv.2, e = ArchiveEntryPerReplica.Empty) →
      archiveFileWrite m = none) ∧
    (∀ (m2 : ArchiveEntryMap) (bs : List Nat),
      archiveFileWrite m2 = some bs → prune_deleted m2 ≠ []) := by
  refine ⟨?_, ?_, ?_⟩
  · unfold archiveFileWrite
    by_cases hp : (prune_deleted m).isEmpty = true
    · rw [if_pos hp]
      rw [List.isEmpty_iff] at hp
      rw [hp]
      rfl
    · rw [if_neg hp]
      show catchDegraded [] (readEntriesBytes n (encArchiveFile (prune_deleted m))) = _
      rw [readEntriesBytes_enc n _ (mapWF_prune n m h)]
      rfl
  · intro hall
    unfold archiveFileWrite
    have : prune_deleted m = [] := by
      unfold prune_deleted
      rw [List.filter_eq_nil_iff]
      intro kv hkv
      have : kv.2.all (fun replica => replica == ArchiveEntryPerReplica.Empty) = true :=
        List.all_eq_true.mpr (fun e he => by
          rw [hall kv hkv e he]
          rfl)
      simp [this]
    simp [this]
  · intro m2 bs hw
    unfold archiveFileWrite at hw
    by_cases hp : (prune_deleted m2).isEmpty = true
    · rw [if_pos hp] at hw
      exact absurd hw (by simp)
    · rw [List.isEmpty_iff] at hp
      exact fun hcon => hp hcon

instance exceptDecEq {ε α : Type _} [DecidableEq ε] [DecidableEq α] :
    DecidableEq (Except ε α)
  | .ok a, .ok b =>
    if h : a = b then .isTrue (by rw [h]) else .isFalse (by intro hc; cases hc; exact h rfl)
  | .ok _, .error _ => .isFalse (by intro hc; cases hc)
  | .error _, .ok _ => .isFalse (by intro hc; cases hc)
  | .error a, .error b =>
    if h : a = b then .isTrue (by rw [h]) else .isFalse (by intro hc; cases hc; exact h rfl)

/-- Witness for C4 at a concrete two-replica map containing a live entry
and an all-`Empty` entry. -/
theorem archive_write_read_roundtrip_witness :
    mapWF 2 [(5, [ArchiveEntryPerReplica.File tok0, ArchiveEntryPerReplica.Empty]),
      (9, [ArchiveEntryPerReplica.Empty, ArchiveEntryPerReplica.Empty])] ∧
    archiveFileReadBytes 2
        (archiveFileWrite
          [(5, [ArchiveEntryPerReplica.File tok0, ArchiveEntryPerReplica.Empty]),
            (9, [ArchiveEntryPerReplica.Empty, ArchiveEntryPerReplica.Empty])]) =
      .ok [(5, [ArchiveEntryPerReplica.File tok0, ArchiveEntryPerReplica.Empty])] := by
  constructor
  · decide
  · have h := (archive_write_read_roundtrip 2
      [(5, [ArchiveEntryPerReplica.File tok0, ArchiveEntryPerReplica.Empty]),
        (9, [ArchiveEntryPerReplica.Empty, ArchiveEntryPerReplica.Empty])] (by decide)).1
    rw [h]
    decide

/-! ## The hashed archive store (claims C5, C6, C7)

The archive directory is a collection of files keyed by the hash of a
directory's relative path (src/archive.rs, `Archive::for_directory` /
`for_hashed_directory`).  It is modelled as an association list from
hash to entry map; the path-hash function itself is a parameter
(`FNV-1a` in the source; only its values matter here). -/

/-- The archive directory: decimal-hash file name ↦ that file's
entry map. -/
abbrev Store := List (Nat × ArchiveEntryMap)

/-- Locate an archive file by hash. -/
def Store.findFile (s : Store) (hd : Nat) : Option (Nat × ArchiveEntryMap) :=
  List.find? (fun kv => kv.1 == hd) s

/-- `ArchiveFile::read` at the store level: a missing file reads as the
empty map (the degraded cases of C3 do not arise for well-formed
files). -/
def Store.readFile (s : Store) (hd : Nat) : ArchiveEntryMap :=
  match Store.findFile s hd with
  | some kv => kv.2
  | none => []

/-- `ArchiveFile::remove_all` (src/archive.rs lines 74-81). -/
def Store.removeAll (s : Store) (hd : Nat) : Store :=
  s.filter (fun kv => kv.1 != hd)

/-- Replace an existing file's contents, or create the file.  (The
store models an unordered directory of files, so the position of the
rewritten file is immaterial.) -/
def Store.setFile (s : Store) (hd : Nat) (m : ArchiveEntryMap) : Store :=
  (hd, m) :: Store.removeAll s hd

/-- `ArchiveFile::write` at the store level (src/archive.rs lines
109-125): prune all-`Empty` entries, then remove the file if the map
became empty, otherwise rewrite it. -/
def Store.writeFile (s : Store) (hd : Nat) (m : ArchiveEntryMap) : Store :=
  let pruned := prune_deleted m
  if pruned.isEmpty then Store.removeAll s hd else Store.setFile s hd pruned

/-- `ArchiveEntries::get` by hashed key (src/archive.rs lines 179-181). -/
def ArchiveEntryMap.lookupHash (m : ArchiveEntryMap) (hp : Nat) :
    Option (List ArchiveEntryPerReplica) :=
  match List.find? (fun kv => kv.1 == hp) m with
  | some kv => some kv.2
  | none => none

/-- `ArchiveEntries::insert` by hashed key (src/archive.rs lines
183-187): a `HashMap` insert replaces any existing binding. -/
def ArchiveEntryMap.insertHash (m : ArchiveEntryMap) (hp : Nat)
    (v : List ArchiveEntryPerReplica) : ArchiveEntryMap :=
  if (List.find? (fun kv => kv.1 == hp) m).isSome then
    m.map (fun kv => if kv.1 = hp then (hp, v) else kv)
  else m ++ [(hp, v)]

/-- `any_directories_in` (src/propagate/mod.rs lines 264-272). -/
def any_directories_in (replicas : List ArchiveEntryPerReplica) : Bool :=
  replicas.any (fun replica =>
    match replica with
    | .Directory _ => true
    | _ => false)

theorem removeAll_length_lt (s : Store) (hd : Nat) (kv : Nat × ArchiveEntryMap)
    (hf : Store.findFile s hd = some kv) :
    (Store.removeAll s hd).length < s.length := by
  unfold Store.findFile at hf
  have hmem : kv ∈ s := List.mem_of_find?_eq_some hf
  have hkey := List.find?_some hf
  simp only [beq_iff_eq] at hkey
  apply List.length_filter_lt_length_iff_exists.mpr
  exact ⟨kv, hmem, by simp [hkey]⟩

/-- The stale-archive invalidation DFS of `update_archive_for_path`
(src/propagate/mod.rs lines 200-218): pop a hash, read its file, push
the hash of every child whose entries contain a directory slot, delete
the file, and continue until the stack empties.  (A `Vec` pushes the
children in map order and pops from the end, so the children go on top
of the stack in reverse.) -/
def dfsRemove (s : Store) (stack : List Nat) : Store :=
  match stack with
  | [] => s
  | hd :: rest =>
    match hf : Store.findFile s hd with
    | none => dfsRemove s rest
    | some kv =>
      let dirs := (kv.2.filter (fun e => any_directories_in e.2)).map (fun e => e.1)
      dfsRemove (Store.removeAll s hd) (dirs.reverse ++ rest)
termination_by (s.length, stack.length)
decreasing_by
  · apply Prod.Lex.right
    simp
  · exact Prod.Lex.left _ _ (removeAll_length_lt s hd kv hf)

theorem dfsRemove_nil (s : Store) : dfsRemove s [] = s := by
  unfold dfsRemove
  rfl

theorem dfsRemove_cons_none (s : Store) (hd : Nat) (rest : List Nat)
    (hf : Store.findFile s hd = none) :
    dfsRemove s (hd :: rest) = dfsRemove s rest := by
  conv_lhs => unfold dfsRemove
  split
  · rfl
  · rename_i kv hsome
    rw [hf] at hsome
    cases hsome

theorem dfsRemove_cons_some (s : Store) (hd : Nat) (rest : List Nat)
    (kv : Nat × ArchiveEntryMap) (hf : Store.findFile s hd = some kv) :
    dfsRemove s (hd :: rest) =
      dfsRemove (Store.removeAll s hd)
        ((((kv.2.filter (fun e => any_directories_in e.2)).map (fun e => e.1)).reverse
          ++ rest)) := by
  conv_lhs => unfold dfsRemove
  split
  · rename_i hnone
    rw [hf] at hnone
    cases hnone
  · rename_i kv' hsome
    rw [hf] at hsome
    cases hsome
    rfl

/-! ## Reachability through directory-slot edges, and what the DFS
removes (claim C6) -/

/-- One "directory edge" in the archive store: the file named `a`
contains an entry for child hash `b` whose replica slots include a
`Directory`. -/
def StoreEdge (s : Store) (a b : Nat) : Prop :=
  ∃ m, (a, m) ∈ s ∧ ∃ kv ∈ m, kv.1 = b ∧ any_directories_in kv.2 = true

/-- `b` is a (reflexive) descendant archive file of `a`, following
directory-slot edges. -/
def ReachesFile (s : Store) (a b : Nat) : Prop :=
  Relation.ReflTransGen (StoreEdge s) a b

/-- Distinct archive files have distinct names (true of a real
directory of files). -/
def StoreKeysNodup (s : Store) : Prop := (s.map (fun kv => kv.1)).Nodup

theorem mem_removeAll (s : Store) (hd h : Nat) (m : ArchiveEntryMap) :
    (h, m) ∈ Store.removeAll s hd ↔ (h, m) ∈ s ∧ h ≠ hd := by
  unfold Store.removeAll
  rw [List.mem_filter]
  simp

theorem storeKeysNodup_removeAll (s : Store) (hd : Nat)
    (hnd : StoreKeysNodup s) : StoreKeysNodup (Store.removeAll s hd) :=
  List.Nodup.sublist (List.Sublist.map _ (List.filter_sublist s)) hnd

theorem storeEdge_removeAll (s : Store) (hd a b : Nat) :
    StoreEdge (Store.removeAll s hd) a b ↔ StoreEdge s a b ∧ a ≠ hd := by
  unfold StoreEdge
  constructor
  · rintro ⟨m, hm, hrest⟩
    rw [mem_removeAll] at hm
    exact ⟨⟨m, hm.1, hrest⟩, hm.2⟩
  · rintro ⟨⟨m, hm, hrest⟩, hne⟩
    exact ⟨m, (mem_removeAll s hd a m).mpr ⟨hm, hne⟩, hrest⟩

theorem reachesFile_mono_removeAll (s : Store) (hd a b : Nat)
    (h : ReachesFile (Store.removeAll s hd) a b) : ReachesFile s a b :=
  Relation.ReflTransGen.mono (fun _ _ he => ((storeEdge_removeAll s hd _ _).mp he).1) h

theorem reach_from_removed (s : Store) (hd y : Nat)
    (h : ReachesFile (Store.removeAll s hd) hd y) : y = hd := by
  rcases Relation.ReflTransGen.cases_head h with heq | ⟨c, hedge, _⟩
  · exact heq.symm
  · exact absurd ((storeEdge_removeAll s hd hd c).mp hedge).2 (by simp)

theorem findFile_mem_key (s : Store) (hd : Nat) (kv : Nat × ArchiveEntryMap)
    (hf : Store.findFile s hd = some kv) : kv ∈ s ∧ kv.1 = hd := by
  unfold Store.findFile at hf
  refine ⟨List.mem_of_find?_eq_some hf, ?_⟩
  have := List.find?_some hf
  simpa using this

theorem findFile_none_not_mem (s : Store) (hd : Nat)
    (hf : Store.findFile s hd = none) :
    ∀ m : ArchiveEntryMap, (hd, m) ∉ s := by
  unfold Store.findFile at hf
  intro m hm
  have := List.find?_eq_none.mp hf (hd, m) hm
  simp at this

theorem mem_eq_of_findFile (s : Store) (hnd : StoreKeysNodup s) (hd : Nat)
    (m : ArchiveEntryMap) (kv : Nat × ArchiveEntryMap)
    (hf : Store.findFile s hd = some kv) (hm : (hd, m) ∈ s) : m = kv.2 := by
  obtain ⟨hkv_mem, hkv_key⟩ := findFile_mem_key s hd kv hf
  unfold StoreKeysNodup at hnd
  have hinj := List.inj_on_of_nodup_map hnd
  have heq : ((hd, m) : Nat × ArchiveEntryMap) = kv :=
    hinj hm hkv_mem (by simp [hkv_key])
  exact congrArg Prod.snd heq

theorem mem_dirs_iff (m : ArchiveEntryMap) (b : Nat) :
    b ∈ (m.filter (fun e => any_directories_in e.2)).map (fun e => e.1) ↔
      ∃ kv ∈ m, kv.1 = b ∧ any_directories_in kv.2 = true := by
  rw [List.mem_map]
  constructor
  · rintro ⟨e, he, rfl⟩
    rw [List.mem_filter] at he
    exact ⟨e, he.1, rfl, he.2⟩
  · rintro ⟨e, he, hb, hdir⟩
    exact ⟨e, List.mem_filter.mpr ⟨he, hdir⟩, hb⟩

theorem edge_from_found (s : Store) (hnd : StoreKeysNodup s) (hd : Nat)
    (kv : Nat × ArchiveEntryMap) (hf : Store.findFile s hd = some kv) (b : Nat) :
    StoreEdge s hd b ↔
      b ∈ (kv.2.filter (fun e => any_directories_in e.2)).map (fun e => e.1) := by
  obtain ⟨hkv_mem, hkv_key⟩ := findFile_mem_key s hd kv hf
  rw [mem_dirs_iff]
  constructor
  · rintro ⟨m, hm, hrest⟩
    rw [mem_eq_of_findFile s hnd hd m kv hf hm] at hrest
    exact hrest
  · intro hrest
    refine ⟨kv.2, ?_, hrest⟩
    have : ((hd, kv.2) : Nat × ArchiveEntryMap) = kv := by
      rw [← hkv_key]
    rw [this]
    exact hkv_mem

theorem reach_reroute (s : Store) (hnd : StoreKeysNodup s) (hd : Nat)
    (kv : Nat × ArchiveEntryMap) (hf : Store.findFile s hd = some kv) :
    ∀ a y, ReachesFile s a y → y ≠ hd →
      ReachesFile (Store.removeAll s hd) a y ∨
        ∃ c ∈ (kv.2.filter (fun e => any_directories_in e.2)).map (fun e => e.1),
          ReachesFile (Store.removeAll s hd) c y := by
  intro a y hr
  induction hr using Relation.ReflTransGen.head_induction_on with
  | refl => exact fun _ => Or.inl Relation.ReflTransGen.refl
  | head hedge _ ihc =>
    rename_i x c _
    intro hy
    rcases ihc hy with hc | hc
    · by_cases hx : x = hd
      · subst hx
        exact Or.inr ⟨c, (edge_from_found s hnd x kv hf c).mp hedge, hc⟩
      · exact Or.inl (Relation.ReflTransGen.head
          ((storeEdge_removeAll s hd x c).mpr ⟨hedge, hx⟩) hc)
    · exact Or.inr hc

theorem dfsRemove_nil_store (stack : List Nat) : dfsRemove [] stack = [] := by
  induction stack with
  | nil => exact dfsRemove_nil []
  | cons hd rest ih => rw [dfsRemove_cons_none [] hd rest rfl, ih]

/-- What the invalidation DFS leaves in the store: exactly the files not
reachable, through directory-slot edges, from any hash on the initial
stack — each reachable file having been read, expanded and deleted. -/
theorem dfsRemove_mem : ∀ (n : Nat) (s : Store), s.length ≤ n → StoreKeysNodup s →
    ∀ (stack : List Nat) (h : Nat) (m : ArchiveEntryMap),
    ((h, m) ∈ dfsRemove s stack ↔
      ((h, m) ∈ s ∧ ∀ a ∈ stack, ¬ ReachesFile s a h)) := by
  intro n
  induction n with
  | zero =>
    intro s hs _ stack h m
    have hse : s = [] := List.eq_nil_of_length_eq_zero (Nat.le_zero.mp hs)
    subst hse
    rw [dfsRemove_nil_store]
    simp
  | succ n ih =>
    intro s hs hnd stack
    induction stack with
    | nil =>
      intro h m
      rw [dfsRemove_nil]
      simp
    | cons hd rest ihstack =>
      intro h m
      cases hf : Store.findFile s hd with
      | none =>
        rw [dfsRemove_cons_none s hd rest hf, ihstack h m]
        constructor
        · rintro ⟨hmem, hrest⟩
          refine ⟨hmem, ?_⟩
          intro a ha
          rcases List.mem_cons.mp ha with rfl | ha
          · intro hr
            rcases Relation.ReflTransGen.cases_head hr with heq | ⟨c, hedge, _⟩
            · exact findFile_none_not_mem s a hf m (heq ▸ hmem)
            · obtain ⟨m', hm', _⟩ := hedge
              exact findFile_none_not_mem s a hf m' hm'
          · exact hrest a ha
        · rintro ⟨hmem, hall⟩
          exact ⟨hmem, fun a ha => hall a (List.mem_cons_of_mem _ ha)⟩
      | some kv =>
        rw [dfsRemove_cons_some s hd rest kv hf]
        have hlt : (Store.removeAll s hd).length ≤ n := by
          have := removeAll_length_lt s hd kv hf
          omega
        have hnd' := storeKeysNodup_removeAll s hd hnd
        rw [ih (Store.removeAll s hd) hlt hnd' _ h m]
        have hDmem : ∀ c, c ∈ ((kv.2.filter (fun e => any_directories_in e.2)).map
            (fun e => e.1)).reverse ++ rest ↔
            c ∈ (kv.2.filter (fun e => any_directories_in e.2)).map (fun e => e.1) ∨
              c ∈ rest := by
          intro c
          rw [List.mem_append, List.mem_reverse]
        constructor
        · rintro ⟨hmem, hall⟩
          have hmem' := (mem_removeAll s hd h m).mp hmem
          refine ⟨hmem'.1, ?_⟩
          intro a ha hr
          rcases reach_reroute s hnd hd kv hf a h hr hmem'.2 with hr' | ⟨c, hcD, hr'⟩
          · rcases List.mem_cons.mp ha with rfl | ha
            · exact hmem'.2 (reach_from_removed s a h hr')
            · exact hall a ((hDmem a).mpr (Or.inr ha)) hr'
          · exact hall c ((hDmem c).mpr (Or.inl hcD)) hr'
        · rintro ⟨hmem, hall⟩
          have hne : h ≠ hd := by
            rintro rfl
            exact hall h (List.mem_cons_self _ _) Relation.ReflTransGen.refl
          refine ⟨(mem_removeAll s hd h m).mpr ⟨hmem, hne⟩, ?_⟩
          intro a ha hr'
          have hr := reachesFile_mono_removeAll s hd a h hr'
          rcases (hDmem a).mp ha with haD | haRest
          · have hhd : ReachesFile s hd h :=
              Relation.ReflTransGen.head ((edge_from_found s hnd hd kv hf a).mpr haD) hr
            exact hall hd (List.mem_cons_self _ _) hhd
          · exact hall a (List.mem_cons_of_mem _ haRest) hr

/-! ## `update_archive_for_path` (claims C6 and C7) -/

/-- Modelled from the spec: `ArchiveEntryPerReplica::from_roots` /
`EntryState::observe_all` — its definition is not among the included
sources (only callers are); per the spec it observes
`root.join(relative_path)` for each replica root. -/
def from_roots (fs : Fs) (roots : List FsPath) (relative_path : FsPath) :
    List ArchiveEntryPerReplica :=
  roots.map (fun root => Fs.observe fs (root ++ relative_path))

/-- `read_dir`: the absolute paths of the immediate children of a
directory. -/
def Fs.childrenOf (fs : Fs) (p : FsPath) : List FsPath :=
  (List.filter (fun n => n.path.length == p.length + 1 && pathStartsWith n.path p) fs).map
    (fun n => n.path)

/-- `WalkDir::new(root)`, restricted (as the source's loop is) to the
entries that are directories: the root and every directory beneath it,
in the filesystem's node order (the walk order is not otherwise relied
upon). -/
def Fs.walkDirs (fs : Fs) (root : FsPath) : List FsPath :=
  (List.filter (fun n => (n.kind == FsKind.directory) && pathStartsWith n.path root) fs).map
    (fun n => n.path)

/-- `Path::strip_prefix` for the in-range case. -/
def stripPrefixPath (p root : FsPath) : FsPath := p.drop root.length

/-- The stale-descendant pruning block of `update_archive_for_path`
(src/propagate/mod.rs lines 193-225): if the parent archive's record
for the path exists and has a directory slot, run the invalidation DFS
from the path's hash; otherwise do nothing. -/
def pruneStalePhase (hpath : Nat) (entries : ArchiveEntryMap) (s : Store) : Store :=
  match ArchiveEntryMap.lookupHash entries hpath with
  | some replicas =>
    if any_directories_in replicas then dfsRemove s [hpath] else s
  | none => s

/-- The entry map `update_archive_for_path` synthesizes for one walked
subdirectory (src/propagate/mod.rs lines 241-251): its immediate
children that are not directories, each mapped to a fresh per-replica
observation, keyed by the hash of the child's relative path. -/
def synthEntriesFor (hashP : FsPath → Nat) (fs : Fs) (roots : List FsPath)
    (relative_path firstRootAbs dirAbs : FsPath) : ArchiveEntryMap :=
  (Fs.childrenOf fs dirAbs).foldl
    (fun m childAbs =>
      if Fs.isDir fs childAbs then m
      else
        ArchiveEntryMap.insertHash m
          (hashP (relative_path ++ stripPrefixPath childAbs firstRootAbs))
          (from_roots fs roots (relative_path ++ stripPrefixPath childAbs firstRootAbs)))
    []

/-- `update_archive_for_path` (src/propagate/mod.rs lines 188-261):
read the parent directory's archive; prune stale descendant archives
when the prior record had a directory slot; insert the fresh
observation of the path into the parent's archive and write it; then,
if `roots[0]`'s copy of the path is a directory, walk that tree and
write a synthesized archive file for every subdirectory encountered. -/
def updateArchiveForPath (hashP : FsPath → Nat) (fs : Fs) (roots : List FsPath)
    (relative_path : FsPath) (s : Store) : Store :=
  let directory := relative_path.dropLast
  let entries := Store.readFile s (hashP directory)
  let s1 := pruneStalePhase (hashP relative_path) entries s
  let entries1 := ArchiveEntryMap.insertHash entries (hashP relative_path)
    (from_roots fs roots relative_path)
  let s2 := Store.writeFile s1 (hashP directory) entries1
  let firstRootAbs := roots.headD [] ++ relative_path
  if Fs.isDir fs firstRootAbs then
    (Fs.walkDirs fs firstRootAbs).foldl
      (fun acc dirAbs =>
        Store.writeFile acc (hashP (relative_path ++ stripPrefixPath dirAbs firstRootAbs))
          (synthEntriesFor hashP fs roots relative_path firstRootAbs dirAbs))
      s2
  else s2

instance storeKeysNodup.dec (s : Store) : Decidable (StoreKeysNodup s) := by
  unfold StoreKeysNodup
  infer_instance

/-- C6: during the archive update, when the prior record for the path
is missing or has no `Directory` slot, the pruning step removes
nothing; when it exists with a `Directory` slot, the store keeps
exactly the files not reachable from the path's hash through
directory-slot edges — i.e. every descendant archive file, in the DFS
sense of the source, is deleted. -/
theorem update_archive_prune_spec :
    (∀ (hpath : Nat) (entries : ArchiveEntryMap) (s : Store),
      ArchiveEntryMap.lookupHash entries hpath = none →
      pruneStalePhase hpath entries s = s) ∧
    (∀ (hpath : Nat) (entries : ArchiveEntryMap) (s : Store)
        (rs : List ArchiveEntryPerReplica),
      ArchiveEntryMap.lookupHash entries hpath = some rs →
      any_directories_in rs = false →
      pruneStalePhase hpath entries s = s) ∧
    (∀ (hpath : Nat) (entries : ArchiveEntryMap) (s : Store)
        (rs : List ArchiveEntryPerReplica),
      StoreKeysNodup s →
      ArchiveEntryMap.lookupHash entries hpath = some rs →
      any_directories_in rs = true →
      ∀ (h : Nat) (m : ArchiveEntryMap),
        ((h, m) ∈ pruneStalePhase hpath entries s ↔
          (h, m) ∈ s ∧ ¬ ReachesFile s hpath h)) := by
  refine ⟨?_, ?_, ?_⟩
  · intro hpath entries s hnone
    unfold pruneStalePhase
    rw [hnone]
  · intro hpath entries s rs hsome hfalse
    unfold pruneStalePhase
    rw [hsome]
    show (if any_directories_in rs = true then dfsRemove s [hpath] else s) = s
    rw [hfalse]
    simp
  · intro hpath entries s rs hnd hsome htrue h m
    unfold pruneStalePhase
    rw [hsome]
    show (h, m) ∈ (if any_directories_in rs = true then dfsRemove s [hpath] else s) ↔ _
    rw [htrue]
    simp only [if_true]
    rw [dfsRemove_mem s.length s le_rfl hnd [hpath] h m]
    simp

/-- A concrete store for the C6 witness: archive file `1` records a
directory child hashed `2`, whose own archive file records only a
file child hashed `3`. -/
def storeC6 : Store :=
  [(1, [(2, [ArchiveEntryPerReplica.Directory tok0,
             ArchiveEntryPerReplica.Directory tok0])]),
   (2, [(3, [ArchiveEntryPerReplica.File tok0, ArchiveEntryPerReplica.File tok0])])]

/-- The parent archive's record used in the C6 witness. -/
def entriesC6 : ArchiveEntryMap :=
  [(1, [ArchiveEntryPerReplica.Directory tok0, ArchiveEntryPerReplica.Directory tok0])]

/-- Witness for C6: the hypotheses of both the no-op part and the
pruning part hold at concrete inputs. -/
theorem update_archive_prune_spec_witness :
    StoreKeysNodup storeC6 ∧
    pruneStalePhase 9 [] storeC6 = storeC6 ∧
    ((1, [(2, [ArchiveEntryPerReplica.Directory tok0,
        ArchiveEntryPerReplica.Directory tok0])]) ∈ pruneStalePhase 1 entriesC6 storeC6 ↔
      (1, [(2, [ArchiveEntryPerReplica.Directory tok0,
        ArchiveEntryPerReplica.Directory tok0])]) ∈ storeC6 ∧
        ¬ ReachesFile storeC6 1 1) :=
  ⟨by decide,
   update_archive_prune_spec.1 9 [] storeC6 rfl,
   update_archive_prune_spec.2.2 1 entriesC6 storeC6
     [ArchiveEntryPerReplica.Directory tok0, ArchiveEntryPerReplica.Directory tok0]
     (by decide) rfl rfl 1 _⟩

/-! ## What the post-propagation walk writes (claim C7) -/

theorem findFile_removeAll_self (s : Store) (k : Nat) :
    Store.findFile (Store.removeAll s k) k = none := by
  unfold Store.findFile Store.removeAll
  apply List.find?_eq_none.mpr
  intro kv hkv
  have := List.of_mem_filter hkv
  simpa using this

theorem findFile_removeAll_other (s : Store) (k k' : Nat) (h : k' ≠ k) :
    Store.findFile (Store.removeAll s k) k' = Store.findFile s k' := by
  unfold Store.findFile Store.removeAll
  induction s with
  | nil => rfl
  | cons kv t ih =>
    by_cases hk : kv.1 = k
    · have h1 : (kv.1 != k) = false := by simp [hk]
      have h2 : (kv.1 == k') = false := by simp [hk, Ne.symm h]
      rw [List.filter_cons, h1, List.find?_cons, h2]
      exact ih
    · have h1 : (kv.1 != k) = true := by simp [hk]
      rw [List.filter_cons, h1, if_pos rfl, List.find?_cons, List.find?_cons]
      cases hkv : (kv.1 == k') with
      | true => rfl
      | false => exact ih

theorem readFile_writeFile_self (s : Store) (k : Nat) (m : ArchiveEntryMap) :
    Store.readFile (Store.writeFile s k m) k = prune_deleted m := by
  unfold Store.writeFile
  by_cases hp : (prune_deleted m).isEmpty = true
  · rw [if_pos hp]
    unfold Store.readFile
    rw [findFile_removeAll_self]
    rw [List.isEmpty_iff] at hp
    exact hp.symm
  · rw [if_neg hp]
    unfold Store.readFile Store.setFile Store.findFile
    rw [List.find?_cons]
    simp

theorem readFile_writeFile_other (s : Store) (k k' : Nat) (m : ArchiveEntryMap)
    (h : k' ≠ k) :
    Store.readFile (Store.writeFile s k m) k' = Store.readFile s k' := by
  unfold Store.writeFile
  by_cases hp : (prune_deleted m).isEmpty = true
  · rw [if_pos hp]
    unfold Store.readFile
    rw [findFile_removeAll_other s k k' h]
  · rw [if_neg hp]
    unfold Store.readFile Store.setFile Store.findFile
    rw [List.find?_cons]
    have : ((k, prune_deleted m).1 == k') = false := by simp [Ne.symm h]
    rw [this]
    rw [show List.find? (fun kv => kv.1 == k') (Store.removeAll s k) =
      Store.findFile (Store.removeAll s k) k' from rfl]
    rw [findFile_removeAll_other s k k' h]
    rfl

theorem foldl_write_readFile_untouched {β : Type _} (key : β → Nat)
    (val : β → ArchiveEntryMap) (ds : List β) (s : Store) (k : Nat)
    (h : ∀ x ∈ ds, key x ≠ k) :
    Store.readFile (ds.foldl (fun acc x => Store.writeFile acc (key x) (val x)) s) k =
      Store.readFile s k := by
  induction ds generalizing s with
  | nil => rfl
  | cons x ds ih =>
    rw [List.foldl_cons, ih _ (fun y hy => h y (List.mem_cons_of_mem _ hy)),
      readFile_writeFile_other s (key x) k (val x)
        (fun hc => h x (List.mem_cons_self _ _) hc.symm)]

theorem foldl_write_readFile_mem {β : Type _} [DecidableEq β] (key : β → Nat)
    (val : β → ArchiveEntryMap) (ds : List β) (s : Store) (d : β)
    (hmem : d ∈ ds) (hnd : (ds.map key).Nodup) :
    Store.readFile (ds.foldl (fun acc x => Store.writeFile acc (key x) (val x)) s)
        (key d) = prune_deleted (val d) := by
  induction ds generalizing s with
  | nil => cases hmem
  | cons x ds ih =>
    rw [List.map_cons, List.nodup_cons] at hnd
    rcases List.mem_cons.mp hmem with rfl | hmem'
    · rw [List.foldl_cons,
        foldl_write_readFile_untouched key val ds _ (key d)
          (fun y hy hc => hnd.1 (hc ▸ List.mem_map_of_mem key hy)),
        readFile_writeFile_self]
    · rw [List.foldl_cons]
      exact ih _ hmem' hnd.2

/-- C7 amended, positive part: when `roots[0]`'s copy of the path is a
directory (after a successful propagation it mirrors the master's), the
walk leaves, for every subdirectory `d` of that tree (hashes of the
walked relative paths being distinct), an archive file holding exactly
the synthesized entries of `d`'s immediate non-directory children —
pruned of all-`Empty` rows, the file being absent when nothing
remains. -/
theorem update_archive_children_spec (hashP : FsPath → Nat) (fs : Fs)
    (roots : List FsPath) (rp : FsPath) (s : Store)
    (hdir : Fs.isDir fs (roots.headD [] ++ rp) = true)
    (d : FsPath) (hmem : d ∈ Fs.walkDirs fs (roots.headD [] ++ rp))
    (hnd : ((Fs.walkDirs fs (roots.headD [] ++ rp)).map
      (fun x => hashP (rp ++ stripPrefixPath x (roots.headD [] ++ rp)))).Nodup) :
    Store.readFile (updateArchiveForPath hashP fs roots rp s)
        (hashP (rp ++ stripPrefixPath d (roots.headD [] ++ rp))) =
      prune_deleted
        (synthEntriesFor hashP fs roots rp (roots.headD [] ++ rp) d) := by
  unfold updateArchiveForPath
  simp only [hdir, if_true]
  exact foldl_write_readFile_mem
    (fun x => hashP (rp ++ stripPrefixPath x (roots.headD [] ++ rp)))
    (fun x => synthEntriesFor hashP fs roots rp (roots.headD [] ++ rp) x)
    (Fs.walkDirs fs (roots.headD [] ++ rp)) _ d hmem hnd

/-- A concrete stand-in for the path-hash function (FNV-1a in the
source; only distinctness of values matters to the model). -/
def strCode (s : String) : Nat :=
  s.data.foldl (fun a c => a * 256 + c.toNat + 1) 0

/-- Hash of a path for concrete examples. -/
def demoHash (p : FsPath) : Nat :=
  p.foldl (fun a c => a * 65536 + strCode c + 1) 0

/-- Two mirrored replicas after a propagation: `d` is a directory on
both roots, with an immediate file child `f` and an immediate
subdirectory child `s` (which itself holds a file `g`). -/
def fsC7 : Fs :=
  [ ⟨["r0", "d"], .directory, 1, 1, 0, 0⟩,
    ⟨["r0", "d", "f"], .file, 2, 2, 5, 11⟩,
    ⟨["r0", "d", "s"], .directory, 3, 3, 0, 0⟩,
    ⟨["r0", "d", "s", "g"], .file, 4, 4, 6, 12⟩,
    ⟨["r1", "d"], .directory, 5, 5, 0, 0⟩,
    ⟨["r1", "d", "f"], .file, 6, 6, 5, 11⟩,
    ⟨["r1", "d", "s"], .directory, 7, 7, 0, 0⟩,
    ⟨["r1", "d", "s", "g"], .file, 8, 8, 6, 12⟩ ]

/-- The archive store after updating the archives for `d` from an
empty store. -/
def resultC7 : Store :=
  updateArchiveForPath demoHash fsC7 [["r0"], ["r1"]] ["d"] []

/-- C7 as stated is false: `s` is an immediate child of the walked
subdirectory `d`, observable on every replica, yet the archive file the
walk writes for `d` has no entry for `s` — the source inserts only the
immediate children that are NOT directories (src/propagate/mod.rs line
245), while the file child `f` is present with its fresh per-replica
observation. -/
theorem update_archive_children_counterexample :
    Fs.isDir fsC7 (["r0"] ++ ["d"]) = true ∧
    Fs.childrenOf fsC7 ["r0", "d"] = [["r0", "d", "f"], ["r0", "d", "s"]] ∧
    from_roots fsC7 [["r0"], ["r1"]] ["d", "s"] =
      [ArchiveEntryPerReplica.Directory ⟨3, 3⟩,
       ArchiveEntryPerReplica.Directory ⟨7, 7⟩] ∧
    ArchiveEntryMap.lookupHash (Store.readFile resultC7 (demoHash ["d"]))
      (demoHash ["d", "s"]) = none ∧
    ArchiveEntryMap.lookupHash (Store.readFile resultC7 (demoHash ["d"]))
      (demoHash ["d", "f"]) =
        some (from_roots fsC7 [["r0"], ["r1"]] ["d", "f"]) := by
  decide

/-- Witness for the amended C7: the hypotheses of
`update_archive_children_spec` hold at the concrete world, for the
walked subdirectory `s`. -/
theorem update_archive_children_spec_witness :
    Fs.isDir fsC7 ([["r0"], ["r1"]].headD [] ++ ["d"]) = true ∧
    ["r0", "d", "s"] ∈ Fs.walkDirs fsC7 ([["r0"], ["r1"]].headD [] ++ ["d"]) ∧
    Store.readFile (updateArchiveForPath demoHash fsC7 [["r0"], ["r1"]] ["d"] [])
        (demoHash (["d"] ++
          stripPrefixPath ["r0", "d", "s"] ([["r0"], ["r1"]].headD [] ++ ["d"]))) =
      prune_deleted (synthEntriesFor demoHash fsC7 [["r0"], ["r1"]] ["d"]
        ([["r0"], ["r1"]].headD [] ++ ["d"]) ["r0", "d", "s"]) :=
  ⟨by decide, by decide,
   update_archive_children_spec demoHash fsC7 [["r0"], ["r1"]] ["d"] [] (by decide)
     ["r0", "d", "s"] (by decide) (by decide)⟩

/-! ## Propagation (claim C5) -/

/-- `error::SyncError`, restricted to the variants the embedded code
produces. -/
inductive SyncError
  | PathModified (p : FsPath)
  | Cancelled
  | RootDoesntExist (p : FsPath)
  | AbsolutePathProvided (p : FsPath)
  | IoError (e : IoErrorKind)
  | Unimplemented
deriving DecidableEq

/-- The caller-supplied `PropagationOptions` removal callbacks and the
external copy tool (`transfer_file` / `transfer_directory`, which shell
out to rsync), as filesystem transformers that may fail and may leave
partial effects behind.  They act on the replica filesystem only — as
in the source, where they receive replica paths and never the archive. -/
structure PropEnv where
  shouldRemove : FsPath → Bool
  removeFileAct : Fs → FsPath → Fs × Option SyncError
  removeDirAct : Fs → FsPath → Fs × Option SyncError
  transferFileAct : Fs → FsPath → FsPath → Fs × Option SyncError
  transferDirAct : Fs → FsPath → FsPath → Fs × Option SyncError

/-- `remove_file` (src/propagate/mod.rs lines 98-106): consult
`should_remove`, then delegate. -/
def removeFileH (env : PropEnv) (p : FsPath) (fs : Fs) : Fs × Option SyncError :=
  if env.shouldRemove p then env.removeFileAct fs p else (fs, some .Cancelled)

/-- `remove_directory_recursive` (src/propagate/mod.rs lines 108-132). -/
def removeDirH (env : PropEnv) (p : FsPath) (fs : Fs) : Fs × Option SyncError :=
  if env.shouldRemove p then env.removeDirAct fs p else (fs, some .Cancelled)

/-- Sequencing that stops at the first failure but keeps the partially
mutated filesystem (Rust `?` on side-effecting calls). -/
def seqStep (st : Fs × Option SyncError) (k : Fs → Fs × Option SyncError) :
    Fs × Option SyncError :=
  match st with
  | (fs, none) => k fs
  | e => e

/-- The transition table of `propagate` (src/propagate/mod.rs lines
37-66), keyed by (master kind, replica kind); the `unimplemented!()`
panics on symlinks are modelled as a distinguished error. -/
def applyTransition (env : PropEnv) (masterEntry replica : ArchiveEntryPerReplica)
    (master_path absolute_path : FsPath) (fs : Fs) : Fs × Option SyncError :=
  match masterEntry, replica with
  | .Empty, .Empty => (fs, none)
  | .Empty, .File _ => removeFileH env absolute_path fs
  | .Empty, .Directory _ => removeDirH env absolute_path fs
  | .Empty, .Symlink _ => (fs, some .Unimplemented)
  | .File _, .Empty => env.transferFileAct fs master_path absolute_path
  | .File _, .File _ => env.transferFileAct fs master_path absolute_path
  | .File _, .Directory _ =>
    seqStep (removeDirH env absolute_path fs)
      (fun fs1 => env.transferFileAct fs1 master_path absolute_path)
  | .File _, .Symlink _ => (fs, some .Unimplemented)
  | .Directory _, .Empty => env.transferDirAct fs master_path absolute_path
  | .Directory _, .File _ =>
    seqStep (removeFileH env absolute_path fs)
      (fun fs1 => env.transferDirAct fs1 master_path absolute_path)
  | .Directory _, .Directory _ =>
    seqStep (removeDirH env absolute_path fs)
      (fun fs1 => env.transferDirAct fs1 master_path absolute_path)
  | .Directory _, .Symlink _ => (fs, some .Unimplemented)
  | .Symlink _, _ => (fs, some .Unimplemented)

/-- One iteration of the replica loop of `propagate` (src/propagate/
mod.rs lines 28-67): skip the master; re-observe the replica's absolute
path and fail with `PathModified` if it no longer matches the detected
state; otherwise apply the transition. -/
def propStep (env : PropEnv) (diff : Difference) (master : Nat)
    (masterEntry : ArchiveEntryPerReplica) (master_path : FsPath)
    (fs : Fs) (i : Nat) (replica : ArchiveEntryPerReplica) : Fs × Option SyncError :=
  if i = master then (fs, none)
  else
    let absolute_path := Difference.absolute_path_for_root diff i
    if Fs.observe fs absolute_path ≠ replica then
      (fs, some (.PathModified absolute_path))
    else applyTransition env masterEntry replica master_path absolute_path fs

/-- The replica loop, in replica-index order. -/
def propLoop (env : PropEnv) (diff : Difference) (master : Nat)
    (masterEntry : ArchiveEntryPerReplica) (master_path : FsPath) :
    Fs → List (Nat × ArchiveEntryPerReplica) → Fs × Option SyncError
  | fs, [] => (fs, none)
  | fs, (i, replica) :: rest =>
    seqStep (propStep env diff master masterEntry master_path fs i replica)
      (fun fs1 => propLoop env diff master masterEntry master_path fs1 rest)

/-- The replica filesystems together with the archive store. -/
structure PropWorld where
  fs : Fs
  archive : Store

/-- `propagate` (src/propagate/mod.rs lines 17-73): run the replica
loop; only when every non-master replica succeeded, update the archive
for the path (and its children). -/
def propagate (env : PropEnv) (diff : Difference) (master : Nat)
    (hashP : FsPath → Nat) (w : PropWorld) : PropWorld × Option SyncError :=
  match propLoop env diff master (diff.current_state.getD master .Empty)
      (Difference.absolute_path_for_root diff master) w.fs diff.current_state.enum with
  | (fs1, some e) => ({ fs := fs1, archive := w.archive }, some e)
  | (fs1, none) =>
    ({ fs := fs1,
       archive := updateArchiveForPath hashP fs1 diff.roots diff.path w.archive },
     none)

/-- C5: each non-master replica's path is re-observed before any
mutation of that replica and a mismatch fails with `PathModified`
leaving the filesystem untouched at that step; whenever propagation
fails with any error, the archive component is exactly the initial one;
and the archive update runs exactly when every replica step
succeeded. -/
theorem propagate_spec :
    (∀ (env : PropEnv) (diff : Difference) (master : Nat)
        (masterEntry : ArchiveEntryPerReplica) (master_path : FsPath)
        (fs : Fs) (i : Nat) (replica : ArchiveEntryPerReplica),
      i ≠ master →
      Fs.observe fs (Difference.absolute_path_for_root diff i) ≠ replica →
      propStep env diff master masterEntry master_path fs i replica =
        (fs, some (SyncError.PathModified (Difference.absolute_path_for_root diff i)))) ∧
    (∀ (env : PropEnv) (diff : Difference) (master : Nat) (hashP : FsPath → Nat)
        (w : PropWorld) (e : SyncError),
      (propagate env diff master hashP w).2 = some e →
      (propagate env diff master hashP w).1.archive = w.archive) ∧
    (∀ (env : PropEnv) (diff : Difference) (master : Nat) (hashP : FsPath → Nat)
        (w : PropWorld),
      (propagate env diff master hashP w).2 = none →
      (propagate env diff master hashP w).1.archive =
        updateArchiveForPath hashP (propagate env diff master hashP w).1.fs
          diff.roots diff.path w.archive) := by
  refine ⟨?_, ?_, ?_⟩
  · intro env diff master masterEntry master_path fs i replica hmi hobs
    unfold propStep
    rw [if_neg hmi, if_pos hobs]
  · intro env diff master hashP w e
    unfold propagate
    cases hl : propLoop env diff master (diff.current_state.getD master .Empty)
        (Difference.absolute_path_for_root diff master) w.fs diff.current_state.enum with
    | mk fs1 err =>
      cases err with
      | none => intro hc; exact Option.noConfusion hc
      | some e' => intro _; rfl
  · intro env diff master hashP w
    unfold propagate
    cases hl : propLoop env diff master (diff.current_state.getD master .Empty)
        (Difference.absolute_path_for_root diff master) w.fs diff.current_state.enum with
    | mk fs1 err =>
      cases err with
      | none => intro _; rfl
      | some e' => intro hc; exact Option.noConfusion hc

/-- A benign environment for the C5 witness. -/
def envW : PropEnv :=
  { shouldRemove := fun _ => true
    removeFileAct := fun fs p => (List.filter (fun n => n.path != p) fs, none)
    removeDirAct := fun fs p => (List.filter (fun n => !pathStartsWith n.path p) fs, none)
    transferFileAct := fun fs _ _ => (fs, none)
    transferDirAct := fun fs _ _ => (fs, none) }

/-- The difference used in the C5 witness: file `f`, present on both
replicas. -/
def diffW : Difference :=
  { path := ["f"]
    roots := [["r0"], ["r1"]]
    previous_state := none
    current_state := [.File ⟨1, 10⟩, .File ⟨2, 11⟩] }

/-- Witness for C5: a mismatching observation at replica 1 fails with
`PathModified` and leaves the archive untouched; on the matching
filesystem the run succeeds and the archive is updated. -/
theorem propagate_spec_witness :
    ((1 : Nat) ≠ 0 ∧
      Fs.observe [] (Difference.absolute_path_for_root diffW 1) ≠
        ArchiveEntryPerReplica.File ⟨2, 11⟩) ∧
    propStep envW diffW 0 (ArchiveEntryPerReplica.File ⟨1, 10⟩) ["r0", "f"] [] 1
        (ArchiveEntryPerReplica.File ⟨2, 11⟩) =
      ([], some (SyncError.PathModified (Difference.absolute_path_for_root diffW 1))) ∧
    (propagate envW diffW 0 demoHash ⟨[], []⟩).2 =
      some (SyncError.PathModified ["r1", "f"]) ∧
    (propagate envW diffW 0 demoHash ⟨[], []⟩).1.archive = ([] : Store) ∧
    (propagate envW diffW 0 demoHash ⟨witFs, []⟩).2 = none ∧
    (propagate envW diffW 0 demoHash ⟨witFs, []⟩).1.archive =
      updateArchiveForPath demoHash (propagate envW diffW 0 demoHash ⟨witFs, []⟩).1.fs
        diffW.roots diffW.path [] := by
  refine ⟨⟨by decide, by decide⟩, ?_, by decide, ?_, by decide, ?_⟩
  · exact propagate_spec.1 envW diffW 0 (ArchiveEntryPerReplica.File ⟨1, 10⟩)
      ["r0", "f"] [] 1 (ArchiveEntryPerReplica.File ⟨2, 11⟩) (by decide) (by decide)
  · exact propagate_spec.2.1 envW diffW 0 demoHash ⟨[], []⟩
      (SyncError.PathModified ["r1", "f"]) (by decide)
  · exact propagate_spec.2.2 envW diffW 0 demoHash ⟨witFs, []⟩ (by decide)

/-! ## Reconciliation (claim C8) -/

/-- `reconcile::Operation` (src/reconcile.rs lines 7-14). -/
inductive Operation
  | PropagateFromMaster (i : Nat)
  | ItemChangedOnMultipleReplicas
  | ItemDiffersBetweenReplicasAndNoArchive
deriving DecidableEq

/-- `previous_state[i]` — the prior-state slot of replica `i`. -/
def prevAt (previous_state : List ArchiveEntryPerReplica) (i : Nat) :
    ArchiveEntryPerReplica :=
  previous_state.getD i .Empty

/-- The prior-state loop of `guess_operation` (src/reconcile.rs lines
24-40): for each replica whose slot differs from the prior state,
return `ItemChangedOnMultipleReplicas` if a differing replica was
already found, else remember this replica as the candidate master.  The
initial accumulator is `ItemChangedOnMultipleReplicas` ("not strictly
true, but it should always be overwritten"). -/
def guessLoopPrev (previous_state : List ArchiveEntryPerReplica) :
    List (Nat × ArchiveEntryPerReplica) → Operation → Operation
  | [], result => result
  | (i, replica) :: rest, result =>
    if replica ≠ prevAt previous_state i then
      match result with
      | .PropagateFromMaster _ => .ItemChangedOnMultipleReplicas
      | _ => guessLoopPrev previous_state rest (.PropagateFromMaster i)
    else guessLoopPrev previous_state rest result

/-- The no-prior-state loop of `guess_operation` (src/reconcile.rs
lines 42-58), keyed on existence instead of change. -/
def guessLoopNone : List (Nat × ArchiveEntryPerReplica) → Operation → Operation
  | [], result => result
  | (i, replica) :: rest, result =>
    if replica.entry_exists then
      match result with
      | .PropagateFromMaster _ => .ItemDiffersBetweenReplicasAndNoArchive
      | _ => guessLoopNone rest (.PropagateFromMaster i)
    else guessLoopNone rest result

/-- `guess_operation` (src/reconcile.rs lines 17-60). -/
def guess_operation (difference : Difference) : Operation :=
  match difference.previous_state with
  | some previous_state =>
    guessLoopPrev previous_state difference.current_state.enum
      .ItemChangedOnMultipleReplicas
  | none =>
    guessLoopNone difference.current_state.enum
      .ItemDiffersBetweenReplicasAndNoArchive

/-- The replicas (as enumerated pairs) whose slot differs from the
prior state. -/
def differingPairs (previous_state : List ArchiveEntryPerReplica)
    (l : List (Nat × ArchiveEntryPerReplica)) : List (Nat × ArchiveEntryPerReplica) :=
  l.filter (fun ir => ir.2 != prevAt previous_state ir.1)

theorem differingPairs_cons_skip (previous_state : List ArchiveEntryPerReplica)
    (i : Nat) (replica : ArchiveEntryPerReplica)
    (rest : List (Nat × ArchiveEntryPerReplica))
    (hdif : replica = prevAt previous_state i) :
    differingPairs previous_state ((i, replica) :: rest) =
      differingPairs previous_state rest := by
  unfold differingPairs
  rw [List.filter_cons]
  have hb : ((i, replica).2 != prevAt previous_state (i, replica).1) = false := by
    simp [hdif]
  rw [hb, if_neg (by simp)]

theorem differingPairs_cons_keep (previous_state : List ArchiveEntryPerReplica)
    (i : Nat) (replica : ArchiveEntryPerReplica)
    (rest : List (Nat × ArchiveEntryPerReplica))
    (hdif : ¬ replica = prevAt previous_state i) :
    differingPairs previous_state ((i, replica) :: rest) =
      (i, replica) :: differingPairs previous_state rest := by
  unfold differingPairs
  rw [List.filter_cons]
  have hb : ((i, replica).2 != prevAt previous_state (i, replica).1) = true := by
    simp [hdif]
  rw [hb, if_pos rfl]

theorem guessLoopPrev_pfm (previous_state : List ArchiveEntryPerReplica)
    (l : List (Nat × ArchiveEntryPerReplica)) (j : Nat) :
    guessLoopPrev previous_state l (.PropagateFromMaster j) =
      (if differingPairs previous_state l = [] then Operation.PropagateFromMaster j
       else Operation.ItemChangedOnMultipleReplicas) := by
  induction l with
  | nil => rfl
  | cons ir rest ih =>
    obtain ⟨i, replica⟩ := ir
    by_cases hdif : replica = prevAt previous_state i
    · have h1 : guessLoopPrev previous_state ((i, replica) :: rest)
          (.PropagateFromMaster j) =
          guessLoopPrev previous_state rest (.PropagateFromMaster j) := by
        rw [guessLoopPrev, if_neg (fun hc => hc hdif)]
      rw [h1, differingPairs_cons_skip previous_state i replica rest hdif, ih]
    · have h1 : guessLoopPrev previous_state ((i, replica) :: rest)
          (.PropagateFromMaster j) = Operation.ItemChangedOnMultipleReplicas := by
        rw [guessLoopPrev, if_pos hdif]
      rw [h1, differingPairs_cons_keep previous_state i replica rest hdif,
        if_neg (by simp)]

theorem guessLoopPrev_start (previous_state : List ArchiveEntryPerReplica)
    (l : List (Nat × ArchiveEntryPerReplica)) :
    guessLoopPrev previous_state l .ItemChangedOnMultipleReplicas =
      (match differingPairs previous_state l with
       | [] => Operation.ItemChangedOnMultipleReplicas
       | [(i, _)] => Operation.PropagateFromMaster i
       | _ => Operation.ItemChangedOnMultipleReplicas) := by
  induction l with
  | nil => rfl
  | cons ir rest ih =>
    obtain ⟨i, replica⟩ := ir
    by_cases hdif : replica = prevAt previous_state i
    · have h1 : guessLoopPrev previous_state ((i, replica) :: rest)
          .ItemChangedOnMultipleReplicas =
          guessLoopPrev previous_state rest .ItemChangedOnMultipleReplicas := by
        rw [guessLoopPrev, if_neg (fun hc => hc hdif)]
        exact fun k hk => Operation.noConfusion hk
      rw [h1, differingPairs_cons_skip previous_state i replica rest hdif]
      exact ih
    · have h1 : guessLoopPrev previous_state ((i, replica) :: rest)
          .ItemChangedOnMultipleReplicas =
          guessLoopPrev previous_state rest (.PropagateFromMaster i) := by
        rw [guessLoopPrev, if_pos hdif]
        exact fun k hk => Operation.noConfusion hk
      rw [h1, differingPairs_cons_keep previous_state i replica rest hdif,
        guessLoopPrev_pfm]
      cases hrest : differingPairs previous_state rest with
      | nil => rw [if_pos rfl]
      | cons x xs => rw [if_neg (by simp)]

/-- C8 amended: with a prior state, `guess_operation` returns
`PropagateFromMaster i` when exactly one replica `i` differs from the
prior, and `ItemChangedOnMultipleReplicas` both when two or more differ
and when none differ (the initial value, documented in the source as a
case that "shouldn't occur"); there is no separate no-op result. -/
theorem guess_operation_prev_spec (d : Difference)
    (prev : List ArchiveEntryPerReplica) (hprev : d.previous_state = some prev) :
    guess_operation d =
      (match differingPairs prev d.current_state.enum with
       | [] => Operation.ItemChangedOnMultipleReplicas
       | [(i, _)] => Operation.PropagateFromMaster i
       | _ => Operation.ItemChangedOnMultipleReplicas) := by
  unfold guess_operation
  rw [hprev]
  exact guessLoopPrev_start prev d.current_state.enum

/-- A difference whose current state equals its prior state on both
replicas (zero differing replicas). -/
def diffC8 : Difference :=
  { path := ["f"]
    roots := [["r0"], ["r1"]]
    previous_state := some [.File tok0, .File tok0]
    current_state := [.File tok0, .File tok0] }

/-- C8 as stated is false at `diffC8`: zero replicas differ from the
prior state, yet `guess_operation` returns
`ItemChangedOnMultipleReplicas` — the value the claim reserves for two
or more differing replicas; there is no no-op operation in the code. -/
theorem guess_operation_zero_counterexample :
    diffC8.previous_state =
      some [ArchiveEntryPerReplica.File tok0, ArchiveEntryPerReplica.File tok0] ∧
    differingPairs [ArchiveEntryPerReplica.File tok0, ArchiveEntryPerReplica.File tok0]
      diffC8.current_state.enum = [] ∧
    guess_operation diffC8 = Operation.ItemChangedOnMultipleReplicas := by
  decide

/-- Witness for the amended C8 at `diffC8`. -/
theorem guess_operation_prev_spec_witness :
    guess_operation diffC8 =
      (match differingPairs [ArchiveEntryPerReplica.File tok0,
          ArchiveEntryPerReplica.File tok0] diffC8.current_state.enum with
       | [] => Operation.ItemChangedOnMultipleReplicas
       | [(i, _)] => Operation.PropagateFromMaster i
       | _ => Operation.ItemChangedOnMultipleReplicas) :=
  guess_operation_prev_spec diffC8
    [ArchiveEntryPerReplica.File tok0, ArchiveEntryPerReplica.File tok0] rfl

/-! ## Update detection (claims C9, C10)

`find_updates` (src/detect/mod.rs lines 141-223) and its helpers.  The
archive is modelled at the path level: the hashed keys
(`Archive::hash`) are represented by the paths themselves — hashing is
injective in the model, collisions being explicitly out of scope in the
source's design notes.  The `AbsolutePathProvided` check has no
counterpart here because the path model carries no absolute/relative
distinction for search directories. -/

/-- The entry map of one directory's archive file, keyed by (the hash
of) the child's relative path. -/
abbrev DMap := List (FsPath × List ArchiveEntryPerReplica)

/-- `ArchiveEntries` (src/archive.rs lines 148-217): the in-memory
entries of one archive file together with its dirty flag. -/
structure ArchiveEntriesL where
  entries : DMap
  dirty : Bool
deriving DecidableEq

/-- `ArchiveEntries::empty` (src/archive.rs lines 160-165). -/
def ArchiveEntriesL.empty : ArchiveEntriesL := ⟨[], false⟩

/-- `ArchiveEntries::new` (src/archive.rs lines 167-172), used by
`read`. -/
def ArchiveEntriesL.new (m : DMap) : ArchiveEntriesL := ⟨m, false⟩

/-- `ArchiveEntries::get` (src/archive.rs lines 179-181). -/
def ArchiveEntriesL.get (a : ArchiveEntriesL) (p : FsPath) :
    Option (List ArchiveEntryPerReplica) :=
  match List.find? (fun kv => kv.1 == p) a.entries with
  | some kv => some kv.2
  | none => none

/-- `ArchiveEntries::insert` (src/archive.rs lines 183-187): replace
any binding for the key and set the dirty flag. -/
def ArchiveEntriesL.insert (a : ArchiveEntriesL) (p : FsPath)
    (v : List ArchiveEntryPerReplica) : ArchiveEntriesL :=
  ⟨(p, v) :: a.entries.filter (fun kv => kv.1 != p), true⟩

/-- `ArchiveEntries::prune_deleted` (src/archive.rs lines 192-212):
drops all-`Empty` entries; does not touch the dirty flag. -/
def ArchiveEntriesL.prune_deleted (a : ArchiveEntriesL) : ArchiveEntriesL :=
  ⟨a.entries.filter (fun kv => !kv.2.all (fun replica => replica == .Empty)), a.dirty⟩

/-- `ArchiveEntries::is_dirty` (src/archive.rs lines 214-216). -/
def ArchiveEntriesL.is_dirty (a : ArchiveEntriesL) : Bool := a.dirty

/-- The archive directory as seen by detection: directory relative path
(standing for its hash) ↦ that directory's entry map. -/
abbrev DStore := List (FsPath × DMap)

/-- `ArchiveFile::read` for detection: a missing file is the empty
entry set; reading never sets the dirty flag. -/
def DStore.read (s : DStore) (d : FsPath) : ArchiveEntriesL :=
  match List.find? (fun kv => kv.1 == d) s with
  | some kv => ArchiveEntriesL.new kv.2
  | none => ArchiveEntriesL.empty

/-- `ArchiveFile::write` for detection: prune, then remove the file if
nothing remains, else rewrite it. -/
def DStore.write (s : DStore) (d : FsPath) (a : ArchiveEntriesL) : DStore :=
  let pruned := (ArchiveEntriesL.prune_deleted a).entries
  if pruned.isEmpty then s.filter (fun kv => kv.1 != d)
  else (d, pruned) :: s.filter (fun kv => kv.1 != d)

/-- `config::SyncInfo` (src/config.rs lines 22-27). -/
structure DetectConfig where
  roots : List FsPath
  ignore : Ignore
  compare_file_contents : Bool

/-- `are_archive_files_identical` (src/detect/util.rs lines 21-28). -/
def are_archive_files_identical (a b : List ArchiveEntryPerReplica) : Bool :=
  (a.zip b).all (fun x => x.1 == x.2)

/-- `HashMap::entry(..).or_insert_with(..)`: keep the existing binding,
insert otherwise. -/
def dmapInsertIfAbsent (m : DMap) (k : FsPath)
    (v : List ArchiveEntryPerReplica) : DMap :=
  if (List.find? (fun kv => kv.1 == k) m).isSome then m else m ++ [(k, v)]

/-- The inner loop of `scan_directory_contents` for one replica root
(src/detect/util.rs lines 60-78): list the children of
`root.join(directory)`, skip ignored relative paths, and record each
remaining child's fresh per-replica observation if not already seen. -/
def scanOneRoot (fs : Fs) (config : DetectConfig) (root sd : FsPath)
    (m : DMap) : DMap :=
  (Fs.childrenOf fs (root ++ sd)).foldl
    (fun acc childAbs =>
      if is_ignored config.ignore (stripPrefixPath childAbs root) then acc
      else
        dmapInsertIfAbsent acc (stripPrefixPath childAbs root)
          (from_roots fs config.roots (stripPrefixPath childAbs root)))
    m

/-- The per-root fold of `scan_directory_contents`, also tracking the
`sd_present_in_all_replicas` flag. -/
def scanRoots (fs : Fs) (config : DetectConfig) (sd : FsPath) : DMap × Bool :=
  config.roots.foldl
    (fun acc root =>
      if Fs.isDir fs (root ++ sd) then (scanOneRoot fs config root sd acc.1, acc.2)
      else (acc.1, false))
    ([], true)

/-- `scan_directory_contents` (src/detect/util.rs lines 47-93): union
the children across replicas; when some replica lacks the directory,
also surface the directory itself. -/
def scan_directory_contents (fs : Fs) (config : DetectConfig) (sd : FsPath) : DMap :=
  if (scanRoots fs config sd).2 then (scanRoots fs config sd).1
  else dmapInsertIfAbsent (scanRoots fs config sd).1 sd (from_roots fs config.roots sd)

/-- `DetectionResult` with its statistics (src/detect/mod.rs lines
37-48, 99-113). -/
structure DetectionResult where
  differences : List Difference
  archive_hits : Nat
  archive_additions : Nat
deriving DecidableEq

/-- Whether `find_updates` recurses into this item (src/detect/mod.rs
lines 210-214): only when the last replica root's copy is a
directory. -/
def maybePush (fs : Fs) (config : DetectConfig) (recurse : Bool) (path : FsPath)
    (wl : List FsPath) : List FsPath :=
  match config.roots.getLast? with
  | some root => if recurse && Fs.isDir fs (root ++ path) then path :: wl else wl
  | none => wl

/-- The per-item loop of `find_updates` (src/detect/mod.rs lines
178-215): archive hit → count it; otherwise in-sync → promote to the
archive; otherwise record a difference (and skip the recursion
check). -/
def processItems (fs : Fs) (config : DetectConfig) (recurse : Bool) :
    List (FsPath × List ArchiveEntryPerReplica) → ArchiveEntriesL →
    DetectionResult → List FsPath →
    Except SyncError (ArchiveEntriesL × DetectionResult × List FsPath)
  | [], entries, res, wl => .ok (entries, res, wl)
  | (path, cur) :: items, entries, res, wl =>
    if (match ArchiveEntriesL.get entries path with
        | some archive_entry => are_archive_files_identical archive_entry cur
        | none => false) then
      processItems fs config recurse items entries
        { res with archive_hits := res.archive_hits + 1 }
        (maybePush fs config recurse path wl)
    else
      match is_item_in_sync fs path cur config.compare_file_contents config.roots with
      | .error e => .error (.IoError e)
      | .ok true =>
        processItems fs config recurse items (ArchiveEntriesL.insert entries path cur)
          { res with archive_additions := res.archive_additions + 1 }
          (maybePush fs config recurse path wl)
      | .ok false =>
        processItems fs config recurse items entries
          { res with differences := add_difference res.differences ⟨path, config.roots, ArchiveEntriesL.get entries path, cur⟩ }
          wl

/-- The worklist loop of `find_updates` (src/detect/mod.rs lines
152-220), fuelled (the source's loop can diverge only on a stale
archive that keeps reporting a mixed-kind directory as a hit; `none`
means the fuel ran out).  The worklist is kept top-first: `pop` is the
head, pushes prepend. -/
def findUpdatesLoop (fs : Fs) (config : DetectConfig) (recurse : Bool) :
    Nat → DStore → List FsPath → DetectionResult →
    Option (Except SyncError (DetectionResult × DStore))
  | 0, _, _, _ => none
  | _ + 1, store, [], res => some (.ok (res, store))
  | fuel + 1, store, sd :: wl, res =>
    match processItems fs config recurse (scan_directory_contents fs config sd)
        (DStore.read store sd) res wl with
    | .error e => some (.error e)
    | .ok (entries1, res1, wl1) =>
      findUpdatesLoop fs config recurse fuel
        (if ArchiveEntriesL.is_dirty entries1 then DStore.write store sd entries1
         else store)
        wl1 res1

/-- `find_updates` (src/detect/mod.rs lines 141-223): check the roots
exist, drop ignored search directories, then run the worklist loop
(LIFO, so the given directories are reversed into the top-first
worklist). -/
def find_updates (fs : Fs) (fuel : Nat) (archive : DStore)
    (directories : List FsPath) (recurse : Bool) (config : DetectConfig) :
    Option (Except SyncError (DetectionResult × DStore)) :=
  match config.roots.find? (fun root => !(Fs.observe fs root).entry_exists) with
  | some root => some (.error (.RootDoesntExist root))
  | none =>
    findUpdatesLoop fs config recurse fuel archive
      (directories.filter (fun dir => !is_ignored config.ignore dir)).reverse
      { differences := [], archive_hits := 0, archive_additions := 0 }

theorem mem_dmapInsertIfAbsent {m : DMap} {k : FsPath}
    {v : List ArchiveEntryPerReplica} {x : FsPath × List ArchiveEntryPerReplica}
    (hx : x ∈ dmapInsertIfAbsent m k v) : x ∈ m ∨ x = (k, v) := by
  unfold dmapInsertIfAbsent at hx
  by_cases hf : (List.find? (fun kv => kv.1 == k) m).isSome = true
  · rw [if_pos hf] at hx
    exact Or.inl hx
  · rw [if_neg hf] at hx
    rcases List.mem_append.mp hx with h | h
    · exact Or.inl h
    · exact Or.inr (List.mem_singleton.mp h)

theorem mem_scanOneRoot_fold (fs : Fs) (config : DetectConfig) (root : FsPath)
    (cs : List FsPath) (m : DMap) (x : FsPath × List ArchiveEntryPerReplica)
    (hx : x ∈ cs.foldl
      (fun acc childAbs =>
        if is_ignored config.ignore (stripPrefixPath childAbs root) then acc
        else
          dmapInsertIfAbsent acc (stripPrefixPath childAbs root)
            (from_roots fs config.roots (stripPrefixPath childAbs root)))
      m) :
    x ∈ m ∨ is_ignored config.ignore x.1 = false := by
  induction cs generalizing m with
  | nil => exact Or.inl hx
  | cons c cs ih =>
    rw [List.foldl_cons] at hx
    rcases ih _ hx with h | h
    · by_cases hig : is_ignored config.ignore (stripPrefixPath c root) = true
      · rw [if_pos hig] at h
        exact Or.inl h
      · rw [if_neg hig] at h
        rcases mem_dmapInsertIfAbsent h with h2 | h2
        · exact Or.inl h2
        · right
          subst h2
          simpa using hig
    · exact Or.inr h

theorem mem_scanOneRoot (fs : Fs) (config : DetectConfig) (root sd : FsPath)
    (m : DMap) (x : FsPath × List ArchiveEntryPerReplica)
    (hx : x ∈ scanOneRoot fs config root sd m) :
    x ∈ m ∨ is_ignored config.ignore x.1 = false := by
  unfold scanOneRoot at hx
  exact mem_scanOneRoot_fold fs config root _ m x hx

theorem mem_scanRoots_fold (fs : Fs) (config : DetectConfig) (sd : FsPath)
    (roots : List FsPath) (acc : DMap × Bool)
    (x : FsPath × List ArchiveEntryPerReplica)
    (hx : x ∈ (roots.foldl
      (fun acc root =>
        if Fs.isDir fs (root ++ sd) then (scanOneRoot fs config root sd acc.1, acc.2)
        else (acc.1, false))
      acc).1) :
    x ∈ acc.1 ∨ is_ignored config.ignore x.1 = false := by
  induction roots generalizing acc with
  | nil => exact Or.inl hx
  | cons r roots ih =>
    rw [List.foldl_cons] at hx
    rcases ih _ hx with h | h
    · by_cases hd : Fs.isDir fs (r ++ sd) = true
      · rw [if_pos hd] at h
        exact mem_scanOneRoot fs config r sd acc.1 x h
      · rw [if_neg hd] at h
        exact Or.inl h
    · exact Or.inr h

theorem mem_scan (fs : Fs) (config : DetectConfig) (sd : FsPath)
    (x : FsPath × List ArchiveEntryPerReplica)
    (hx : x ∈ scan_directory_contents fs config sd) :
    is_ignored config.ignore x.1 = false ∨ x.1 = sd := by
  unfold scan_directory_contents at hx
  by_cases hflag : (scanRoots fs config sd).2 = true
  · rw [if_pos hflag] at hx
    rcases mem_scanRoots_fold fs config sd config.roots ([], true) x hx with h | h
    · cases h
    · exact Or.inl h
  · rw [if_neg hflag] at hx
    rcases mem_dmapInsertIfAbsent hx with h | h
    · rcases mem_scanRoots_fold fs config sd config.roots ([], true) x h with h2 | h2
      · cases h2
      · exact Or.inl h2
    · right
      subst h
      rfl

theorem mem_maybePush (fs : Fs) (config : DetectConfig) (recurse : Bool)
    (path : FsPath) (wl : List FsPath) (p : FsPath)
    (hp : p ∈ maybePush fs config recurse path wl) : p = path ∨ p ∈ wl := by
  unfold maybePush at hp
  cases hr : config.roots.getLast? with
  | none =>
    rw [hr] at hp
    exact Or.inr hp
  | some root =>
    rw [hr] at hp
    have hp' : p ∈ (if (recurse && Fs.isDir fs (root ++ path)) = true
        then path :: wl else wl) := hp
    by_cases hc : (recurse && Fs.isDir fs (root ++ path)) = true
    · rw [if_pos hc] at hp'
      rcases List.mem_cons.mp hp' with h | h
      · exact Or.inl h
      · exact Or.inr h
    · rw [if_neg hc] at hp'
      exact Or.inr hp'

theorem processItems_mem (fs : Fs) (config : DetectConfig) (recurse : Bool) :
    ∀ (items : List (FsPath × List ArchiveEntryPerReplica))
      (entries : ArchiveEntriesL) (res : DetectionResult) (wl : List FsPath)
      (e1 : ArchiveEntriesL) (r1 : DetectionResult) (w1 : List FsPath),
    processItems fs config recurse items entries res wl = .ok (e1, r1, w1) →
    (∀ x ∈ items, is_ignored config.ignore x.1 = false) →
    (∀ d ∈ r1.differences,
      d ∈ res.differences ∨ is_ignored config.ignore d.path = false) ∧
    (∀ p v, (p, v) ∈ e1.entries →
      (∃ v0, (p, v0) ∈ entries.entries) ∨ is_ignored config.ignore p = false) ∧
    (∀ p ∈ w1, p ∈ wl ∨ is_ignored config.ignore p = false) := by
  intro items
  induction items with
  | nil =>
    intro entries res wl e1 r1 w1 hp _
    rw [processItems] at hp
    cases hp
    refine ⟨fun d hd => Or.inl hd, fun p v hv => Or.inl ⟨v, hv⟩, fun p hp => Or.inl hp⟩
  | cons item items ih =>
    obtain ⟨path, cur⟩ := item
    intro entries res wl e1 r1 w1 hp hitems
    have hpath : is_ignored config.ignore path = false :=
      hitems (path, cur) (List.mem_cons_self _ _)
    have hitems' : ∀ x ∈ items, is_ignored config.ignore x.1 = false :=
      fun x hx => hitems x (List.mem_cons_of_mem _ hx)
    rw [processItems] at hp
    by_cases hhit : (match ArchiveEntriesL.get entries path with
        | some archive_entry => are_archive_files_identical archive_entry cur
        | none => false) = true
    · rw [if_pos hhit] at hp
      obtain ⟨hd, he, hw⟩ := ih entries _ _ e1 r1 w1 hp hitems'
      refine ⟨hd, he, ?_⟩
      intro p hpw
      rcases hw p hpw with h | h
      · rcases mem_maybePush fs config recurse path wl p h with h2 | h2
        · right; rw [h2]; exact hpath
        · exact Or.inl h2
      · exact Or.inr h
    · rw [if_neg hhit] at hp
      cases hsync : is_item_in_sync fs path cur config.compare_file_contents
          config.roots with
      | error e =>
        rw [hsync] at hp
        exact absurd hp (by simp)
      | ok b =>
        rw [hsync] at hp
        cases b with
        | true =>
          obtain ⟨hd, he, hw⟩ :=
            ih (ArchiveEntriesL.insert entries path cur) _ _ e1 r1 w1 hp hitems'
          refine ⟨hd, ?_, ?_⟩
          · intro p v hv
            rcases he p v hv with ⟨v0, hv0⟩ | h
            · unfold ArchiveEntriesL.insert at hv0
              rcases List.mem_cons.mp hv0 with h2 | h2
              · right
                have : p = path := congrArg Prod.fst h2
                rw [this]
                exact hpath
              · exact Or.inl ⟨v0, List.mem_of_mem_filter h2⟩
            · exact Or.inr h
          · intro p hpw
            rcases hw p hpw with h | h
            · rcases mem_maybePush fs config recurse path wl p h with h2 | h2
              · right; rw [h2]; exact hpath
              · exact Or.inl h2
            · exact Or.inr h
        | false =>
          obtain ⟨hd, he, hw⟩ := ih entries _ _ e1 r1 w1 hp hitems'
          refine ⟨?_, he, hw⟩
          intro d hd2
          rcases hd d hd2 with h | h
          · rcases mem_add_difference h with h2 | h2
            · exact Or.inl h2
            · right
              rw [h2]
              exact hpath
          · exact Or.inr h

theorem processItems_dirty (fs : Fs) (config : DetectConfig) (recurse : Bool) :
    ∀ (items : List (FsPath × List ArchiveEntryPerReplica))
      (entries : ArchiveEntriesL) (res : DetectionResult) (wl : List FsPath)
      (e1 : ArchiveEntriesL) (r1 : DetectionResult) (w1 : List FsPath),
    processItems fs config recurse items entries res wl = .ok (e1, r1, w1) →
    res.archive_additions ≤ r1.archive_additions ∧
      (e1.dirty = true ↔
        (entries.dirty = true ∨ res.archive_additions < r1.archive_additions)) := by
  intro items
  induction items with
  | nil =>
    intro entries res wl e1 r1 w1 hp
    rw [processItems] at hp
    cases hp
    exact ⟨le_refl _, by simp⟩
  | cons item items ih =>
    obtain ⟨path, cur⟩ := item
    intro entries res wl e1 r1 w1 hp
    rw [processItems] at hp
    by_cases hhit : (match ArchiveEntriesL.get entries path with
        | some archive_entry => are_archive_files_identical archive_entry cur
        | none => false) = true
    · rw [if_pos hhit] at hp
      exact ih entries { res with archive_hits := res.archive_hits + 1 }
        (maybePush fs config recurse path wl) e1 r1 w1 hp
    · rw [if_neg hhit] at hp
      cases hsync : is_item_in_sync fs path cur config.compare_file_contents
          config.roots with
      | error e =>
        rw [hsync] at hp
        exact absurd hp (by simp)
      | ok b =>
        rw [hsync] at hp
        cases b with
        | true =>
          obtain ⟨hle, hiff⟩ :=
            ih (ArchiveEntriesL.insert entries path cur) _ _ e1 r1 w1 hp
          have hadd : res.archive_additions + 1 ≤ r1.archive_additions := hle
          have hdirty : e1.dirty = true := hiff.mpr (Or.inl rfl)
          refine ⟨by omega, ?_⟩
          rw [hdirty]
          constructor
          · intro _
            exact Or.inr (by omega)
          · intro _
            rfl
        | false =>
          obtain ⟨hle, hiff⟩ := ih entries _ _ e1 r1 w1 hp
          exact ⟨hle, hiff⟩

theorem find?_filter_ne (s : DStore) (d d' : FsPath) (h : d' ≠ d) :
    List.find? (fun kv => kv.1 == d') (s.filter (fun kv => kv.1 != d)) =
      List.find? (fun kv => kv.1 == d') s := by
  induction s with
  | nil => rfl
  | cons kv t ih =>
    by_cases hk : kv.1 = d
    · have h1 : (kv.1 != d) = false := by simp [hk]
      have h2 : (kv.1 == d') = false := by simp [hk, Ne.symm h]
      rw [List.filter_cons, h1, if_neg (by simp), List.find?_cons, h2]
      exact ih
    · have h1 : (kv.1 != d) = true := by simp [hk]
      rw [List.filter_cons, h1, if_pos rfl, List.find?_cons, List.find?_cons]
      cases hkv : (kv.1 == d') with
      | true => rfl
      | false => exact ih

theorem dstore_read_write_self (s : DStore) (d : FsPath) (a : ArchiveEntriesL) :
    (DStore.read (DStore.write s d a) d).entries =
      (ArchiveEntriesL.prune_deleted a).entries := by
  unfold DStore.write
  by_cases hp : (ArchiveEntriesL.prune_deleted a).entries.isEmpty = true
  · rw [if_pos hp]
    unfold DStore.read
    have hf : List.find? (fun kv => kv.1 == d) (s.filter (fun kv => kv.1 != d)) =
        none := by
      apply List.find?_eq_none.mpr
      intro kv hkv
      have := List.of_mem_filter hkv
      simpa using this
    rw [hf]
    rw [List.isEmpty_iff] at hp
    rw [hp]
    rfl
  · rw [if_neg hp]
    unfold DStore.read
    rw [List.find?_cons]
    have hd : (((d, (ArchiveEntriesL.prune_deleted a).entries)).1 == d) = true := by
      simp
    rw [hd]
    rfl

theorem dstore_read_write_other (s : DStore) (d d' : FsPath) (a : ArchiveEntriesL)
    (h : d' ≠ d) : DStore.read (DStore.write s d a) d' = DStore.read s d' := by
  unfold DStore.write
  by_cases hp : (ArchiveEntriesL.prune_deleted a).entries.isEmpty = true
  · rw [if_pos hp]
    unfold DStore.read
    rw [find?_filter_ne s d d' h]
  · rw [if_neg hp]
    unfold DStore.read
    rw [List.find?_cons]
    have hd : (((d, (ArchiveEntriesL.prune_deleted a).entries)).1 == d') = false := by
      simp [Ne.symm h]
    rw [hd, find?_filter_ne s d d' h]

/-- Every (hashed) path present in a directory's archive file of
`store` is either non-ignored or was already present in the
corresponding file of the initial `archive`. -/
def DStoreOK (config : DetectConfig) (archive store : DStore) : Prop :=
  ∀ (dir p : FsPath) (v : List ArchiveEntryPerReplica),
    (p, v) ∈ (DStore.read store dir).entries →
    is_ignored config.ignore p = false ∨
      ∃ v0, (p, v0) ∈ (DStore.read archive dir).entries

theorem findUpdatesLoop_invariant (fs : Fs) (config : DetectConfig)
    (recurse : Bool) :
    ∀ (fuel : Nat) (archive store : DStore) (wl : List FsPath)
      (res : DetectionResult) (out : DetectionResult × DStore),
    (∀ p ∈ wl, is_ignored config.ignore p = false) →
    (∀ d ∈ res.differences, is_ignored config.ignore d.path = false) →
    DStoreOK config archive store →
    findUpdatesLoop fs config recurse fuel store wl res = some (.ok out) →
    (∀ d ∈ out.1.differences, is_ignored config.ignore d.path = false) ∧
    DStoreOK config archive out.2 := by
  intro fuel
  induction fuel with
  | zero =>
    intro archive store wl res out _ _ _ hrun
    rw [findUpdatesLoop] at hrun
    exact absurd hrun (by simp)
  | succ fuel ih =>
    intro archive store wl res out hwl hdiff hstore hrun
    cases wl with
    | nil =>
      rw [findUpdatesLoop] at hrun
      cases hrun
      exact ⟨hdiff, hstore⟩
    | cons sd wl =>
      rw [findUpdatesLoop] at hrun
      cases hp : processItems fs config recurse (scan_directory_contents fs config sd)
          (DStore.read store sd) res wl with
      | error e =>
        rw [hp] at hrun
        exact absurd hrun (by simp)
      | ok t =>
        obtain ⟨e1, r1, w1⟩ := t
        rw [hp] at hrun
        have hsd : is_ignored config.ignore sd = false :=
          hwl sd (List.mem_cons_self _ _)
        have hitems : ∀ x ∈ scan_directory_contents fs config sd,
            is_ignored config.ignore x.1 = false := by
          intro x hx
          rcases mem_scan fs config sd x hx with h | h
          · exact h
          · rw [h]
            exact hsd
        obtain ⟨hd1, he1, hw1⟩ :=
          processItems_mem fs config recurse _ _ _ _ _ _ _ hp hitems
        have hwl1 : ∀ p ∈ w1, is_ignored config.ignore p = false := by
          intro p hpm
          rcases hw1 p hpm with h | h
          · exact hwl p (List.mem_cons_of_mem _ h)
          · exact h
        have hdiff1 : ∀ d ∈ r1.differences, is_ignored config.ignore d.path = false := by
          intro d hd
          rcases hd1 d hd with h | h
          · exact hdiff d h
          · exact h
        have hstore1 : DStoreOK config archive
            (if ArchiveEntriesL.is_dirty e1 then DStore.write store sd e1 else store) := by
          by_cases hdirty : ArchiveEntriesL.is_dirty e1 = true
          · rw [if_pos hdirty]
            intro dir p v hmem
            by_cases hdir : dir = sd
            · subst hdir
              rw [dstore_read_write_self] at hmem
              have hmem' : (p, v) ∈ e1.entries := List.mem_of_mem_filter hmem
              rcases he1 p v hmem' with ⟨v0, hv0⟩ | h
              · exact hstore dir p v0 hv0
              · exact Or.inl h
            · rw [dstore_read_write_other store sd dir e1 hdir] at hmem
              exact hstore dir p v hmem
          · rw [if_neg hdirty]
            exact hstore
        exact ih archive _ w1 r1 out hwl1 hdiff1 hstore1 hrun

/-- C9: a path accepted by `is_ignored` — a componentwise-prefix match
against `ignore.paths` or a regex match on its string form — is never
the path of a returned difference, and is never newly present in any
archive file `find_updates` leaves behind; ignored paths are filtered
from the initial worklist and skipped during directory scans. -/
theorem find_updates_ignore_spec (fs : Fs) (fuel : Nat) (archive : DStore)
    (directories : List FsPath) (recurse : Bool) (config : DetectConfig)
    (res : DetectionResult) (store' : DStore)
    (hrun : find_updates fs fuel archive directories recurse config =
      some (.ok (res, store')))
    (p : FsPath) (hig : is_ignored config.ignore p = true) :
    (∀ d ∈ res.differences, d.path ≠ p) ∧
    (∀ dir v, (p, v) ∈ (DStore.read store' dir).entries →
      ∃ v0, (p, v0) ∈ (DStore.read archive dir).entries) := by
  unfold find_updates at hrun
  cases hroot : config.roots.find? (fun root => !(Fs.observe fs root).entry_exists) with
  | some root =>
    rw [hroot] at hrun
    exact absurd hrun (by simp)
  | none =>
    rw [hroot] at hrun
    have hwl0 : ∀ q ∈ (directories.filter
        (fun dir => !is_ignored config.ignore dir)).reverse,
        is_ignored config.ignore q = false := by
      intro q hq
      rw [List.mem_reverse] at hq
      have := List.of_mem_filter hq
      simpa using this
    have h := findUpdatesLoop_invariant fs config recurse fuel archive archive _ _
      (res, store') hwl0 (by intro d hd; cases hd)
      (by intro dir q v hv; exact Or.inr ⟨v, hv⟩) hrun
    refine ⟨?_, ?_⟩
    · intro d hd hdp
      have h2 := h.1 d hd
      rw [hdp, hig] at h2
      cases h2
    · intro dir v hv
      rcases h.2 dir p v hv with h2 | h2
      · rw [h2] at hig
        cases hig
      · exact h2

instance : DecidableEq (DetectionResult × DStore) := instDecidableEqProd

instance : DecidableEq (Except SyncError (DetectionResult × DStore)) := exceptDecEq

/-- The replica filesystems of the detection witness: two existing
roots, an identical file `f` on both, and a file `ign` on the first
root only, which the configuration ignores. -/
def fsD : Fs :=
  [⟨["r0"], .directory, 100, 0, 0, 0⟩,
   ⟨["r1"], .directory, 101, 0, 0, 0⟩,
   ⟨["r0", "f"], .file, 1, 10, 42, 7⟩,
   ⟨["r1", "f"], .file, 2, 11, 42, 7⟩,
   ⟨["r0", "ign"], .file, 3, 12, 1, 1⟩]

/-- The detection configuration of the witness: ignore the literal
path `ign`. -/
def configD : DetectConfig :=
  { roots := [["r0"], ["r1"]]
    ignore := { paths := [["ign"]], regexes := [] }
    compare_file_contents := true }

/-- Witness for C9: a full `find_updates` run over `fsD` succeeds,
promoting only `f` to the archive; the ignored path yields no
difference and is in no archive file. -/
theorem find_updates_ignore_spec_witness :
    find_updates fsD 3 [] [[]] true configD =
      some (.ok (⟨[], 0, 1⟩,
        [([], [(["f"], [ArchiveEntryPerReplica.File ⟨1, 10⟩,
          ArchiveEntryPerReplica.File ⟨2, 11⟩])])])) ∧
    is_ignored configD.ignore ["ign"] = true ∧
    (∀ d ∈ (⟨[], 0, 1⟩ : DetectionResult).differences, d.path ≠ ["ign"]) := by
  refine ⟨by decide, by decide, ?_⟩
  exact (find_updates_ignore_spec fsD 3 [] [[]] true configD ⟨[], 0, 1⟩
    [([], [(["f"], [ArchiveEntryPerReplica.File ⟨1, 10⟩,
      ArchiveEntryPerReplica.File ⟨2, 11⟩])])] (by decide) ["ign"] (by decide)).1

/-- C10: freshly read or empty `ArchiveEntries` are clean; only
`insert` sets the dirty flag (`prune_deleted` preserves it; `get` and
`iter` are pure accessors in this model); within one directory the
entries come out dirty exactly when at least one item was inserted
(equivalently, when `archive_additions` grew); and the worklist loop
writes the directory's archive file back exactly when the dirty flag is
set. -/
theorem archive_dirty_spec :
    ArchiveEntriesL.is_dirty ArchiveEntriesL.empty = false ∧
    (∀ m : DMap, ArchiveEntriesL.is_dirty (ArchiveEntriesL.new m) = false) ∧
    (∀ (s : DStore) (d : FsPath), ArchiveEntriesL.is_dirty (DStore.read s d) = false) ∧
    (∀ (a : ArchiveEntriesL) (p : FsPath) (v : List ArchiveEntryPerReplica),
      ArchiveEntriesL.is_dirty (ArchiveEntriesL.insert a p v) = true) ∧
    (∀ a : ArchiveEntriesL,
      ArchiveEntriesL.is_dirty (ArchiveEntriesL.prune_deleted a) =
        ArchiveEntriesL.is_dirty a) ∧
    (∀ (fs : Fs) (config : DetectConfig) (recurse : Bool)
        (items : List (FsPath × List ArchiveEntryPerReplica))
        (entries : ArchiveEntriesL) (res : DetectionResult) (wl : List FsPath)
        (e1 : ArchiveEntriesL) (r1 : DetectionResult) (w1 : List FsPath),
      processItems fs config recurse items entries res wl = .ok (e1, r1, w1) →
      ArchiveEntriesL.is_dirty entries = false →
      (ArchiveEntriesL.is_dirty e1 = true ↔
        res.archive_additions < r1.archive_additions)) ∧
    (∀ (fs : Fs) (config : DetectConfig) (recurse : Bool) (fuel : Nat)
        (store : DStore) (sd : FsPath) (wl : List FsPath) (res : DetectionResult)
        (e1 : ArchiveEntriesL) (r1 : DetectionResult) (w1 : List FsPath),
      processItems fs config recurse (scan_directory_contents fs config sd)
          (DStore.read store sd) res wl = .ok (e1, r1, w1) →
      findUpdatesLoop fs config recurse (fuel + 1) store (sd :: wl) res =
        findUpdatesLoop fs config recurse fuel
          (if ArchiveEntriesL.is_dirty e1 then DStore.write store sd e1 else store)
          w1 r1) := by
  refine ⟨rfl, fun _ => rfl, ?_, fun _ _ _ => rfl, fun _ => rfl, ?_, ?_⟩
  · intro s d
    unfold DStore.read
    cases List.find? (fun kv => kv.1 == d) s with
    | none => rfl
    | some kv => rfl
  · intro fs config recurse items entries res wl e1 r1 w1 hp hclean
    have h := (processItems_dirty fs config recurse items entries res wl e1 r1 w1 hp).2
    unfold ArchiveEntriesL.is_dirty at hclean ⊢
    rw [h, hclean]
    simp
  · intro fs config recurse fuel store sd wl res e1 r1 w1 hp
    rw [findUpdatesLoop, hp]

/-- Witness for C10: the `f`-only directory scan of the C9 world
inserts one item, leaving the entries dirty; the loop write-back
equation holds at that run. -/
theorem archive_dirty_spec_witness :
    processItems fsD configD true (scan_directory_contents fsD configD [])
        (DStore.read [] []) ⟨[], 0, 0⟩ [] =
      .ok (⟨[(["f"], [ArchiveEntryPerReplica.File ⟨1, 10⟩,
          ArchiveEntryPerReplica.File ⟨2, 11⟩])], true⟩, ⟨[], 0, 1⟩, []) ∧
    ArchiveEntriesL.is_dirty (DStore.read ([] : DStore) []) = false ∧
    (ArchiveEntriesL.is_dirty
        (⟨[(["f"], [ArchiveEntryPerReplica.File ⟨1, 10⟩,
          ArchiveEntryPerReplica.File ⟨2, 11⟩])], true⟩ : ArchiveEntriesL) = true ↔
      (0 : Nat) < 1) ∧
    findUpdatesLoop fsD configD true 2 [] [[]] ⟨[], 0, 0⟩ =
      findUpdatesLoop fsD configD true 1
        (if ArchiveEntriesL.is_dirty
            (⟨[(["f"], [ArchiveEntryPerReplica.File ⟨1, 10⟩,
              ArchiveEntryPerReplica.File ⟨2, 11⟩])], true⟩ : ArchiveEntriesL)
          then DStore.write [] []
            ⟨[(["f"], [ArchiveEntryPerReplica.File ⟨1, 10⟩,
              ArchiveEntryPerReplica.File ⟨2, 11⟩])], true⟩
          else [])
        [] ⟨[], 0, 1⟩ := by
  refine ⟨by decide, rfl, ?_, ?_⟩
  · exact archive_dirty_spec.2.2.2.2.2.1 fsD configD true
      (scan_directory_contents fsD configD []) (DStore.read [] []) ⟨[], 0, 0⟩ []
      ⟨[(["f"], [ArchiveEntryPerReplica.File ⟨1, 10⟩,
        ArchiveEntryPerReplica.File ⟨2, 11⟩])], true⟩ ⟨[], 0, 1⟩ []
      (by decide) rfl
  · exact archive_dirty_spec.2.2.2.2.2.2 fsD configD true 1 [] [] [] ⟨[], 0, 0⟩
      ⟨[(["f"], [ArchiveEntryPerReplica.File ⟨1, 10⟩,
        ArchiveEntryPerReplica.File ⟨2, 11⟩])], true⟩ ⟨[], 0, 1⟩ []
      (by decide)

end Ubiquity
